import Mathlib

/-
Shallow embedding of the gridgpt crossword core
(src/gridgpt/crosswords.py and src/gridgpt/crossword_generator.py).

Modelling conventions:
* Python strings are modelled as `List Char`; grids as `List (List Char)`
  with cells '.', '#', or an uppercase letter.
* Python floats are modelled as exact rationals (the claims under study are
  structural, not about floating-point rounding).
* Python dicts are modelled as association lists (`alookup` / `aset`), and
  the module-global `word_index` defaultdict as a function
  `Nat × Word → List Word` (missing keys yield `[]`, matching
  `word_index.get(key, [])` on a defaultdict that is only read).
* Wall-clock time and `random.random()` are modelled as oracle streams
  `Nat → ℚ` indexed by the number of uses so far.
-/

inductive Dir where
  | across
  | down
deriving DecidableEq, Repr

abbrev Word := List Char
abbrev Grid := List (List Char)

def getCell (g : Grid) (r c : Nat) : Char := (g.getD r []).getD c '?'

def setCell (g : Grid) (r c : Nat) (ch : Char) : Grid :=
  g.set r ((g.getD r []).set c ch)

def gridWidth (g : Grid) : Nat := (g.getD 0 []).length

/-- Python slice `grid[r][c:c+l]` (clamps at the end of the row). -/
def rowSlice (g : Grid) (r c l : Nat) : List Char := ((g.getD r []).drop c).take l

/-- Python `[grid[r + i][c] for i in range(l)]` (source code indexes directly;
we use the total `getCell`, which only differs on out-of-bounds accesses where
Python would raise). -/
def downCells (g : Grid) (r c l : Nat) : List Char :=
  (List.range l).map (fun i => getCell g (r + i) c)

def inBounds (g : Grid) (r c : Nat) : Prop :=
  r < g.length ∧ c < (g.getD r []).length

instance (g : Grid) (r c : Nat) : Decidable (inBounds g r c) := by
  unfold inBounds; infer_instance

/-- The cell written at loop index `i` when placing at `(row, col)` in
direction `d` (`across` writes `grid[row][col+i]`, `down` writes
`grid[row+i][col]`). -/
def cellOf (row col : Nat) (d : Dir) (i : Nat) : Nat × Nat :=
  match d with
  | .across => (row, col + i)
  | .down => (row + i, col)

/-- The write loop shared by `place_word` and the inline placement in
`try_slot`: `for i, letter in enumerate(word): new_grid[...] = letter`,
with `i` starting at the given offset. -/
def writeWordFrom (g : Grid) (w : Word) (row col : Nat) (d : Dir) (i : Nat) : Grid :=
  match w with
  | [] => g
  | ch :: rest =>
    let rc := cellOf row col d i
    writeWordFrom (setCell g rc.1 rc.2 ch) rest row col d (i + 1)

/-- `place_word` (crosswords.py:374): places a word onto a copy of the grid.
Value semantics make the copy implicit here; the heap-level model below
(`placeWordH`) makes the copy explicit. -/
def placeWord (g : Grid) (w : Word) (row col : Nat) (d : Dir) : Grid :=
  writeWordFrom g w row col d 0

/-- Loop of `remove_word`: reset a covered cell to '.' only when it currently
holds that word's letter. -/
def removeWordFrom (g : Grid) (w : Word) (row col : Nat) (d : Dir) (i : Nat) : Grid :=
  match w with
  | [] => g
  | ch :: rest =>
    let rc := cellOf row col d i
    let g1 := if getCell g rc.1 rc.2 = ch then setCell g rc.1 rc.2 '.' else g
    removeWordFrom g1 rest row col d (i + 1)

/-- `remove_word` (crosswords.py:385). -/
def removeWord (g : Grid) (w : Word) (row col : Nat) (d : Dir) : Grid :=
  removeWordFrom g w row col d 0

/- ### List-level helper lemmas for grid mutation -/

theorem list_set_oob {α : Type} (l : List α) (n : Nat) (a : α) (h : l.length ≤ n) :
    l.set n a = l := by
  induction l generalizing n with
  | nil => rfl
  | cons x xs ih =>
    cases n with
    | zero => simp at h
    | succ m => simp only [List.set]; rw [ih m (by simpa using h)]

theorem list_getD_set_eq {α : Type} (l : List α) (n : Nat) (a d : α) (h : n < l.length) :
    (l.set n a).getD n d = a := by
  induction l generalizing n with
  | nil => simp at h
  | cons x xs ih =>
    cases n with
    | zero => rfl
    | succ m => simpa using ih m (by simpa using h)

theorem list_getD_set_ne {α : Type} (l : List α) (m n : Nat) (a d : α) (h : m ≠ n) :
    (l.set m a).getD n d = l.getD n d := by
  induction l generalizing m n with
  | nil => simp
  | cons x xs ih =>
    cases m with
    | zero =>
      cases n with
      | zero => exact absurd rfl h
      | succ k => rfl
    | succ m1 =>
      cases n with
      | zero => rfl
      | succ k => simpa using ih m1 k (by omega)

theorem list_set_set_same {α : Type} (l : List α) (n : Nat) (a b : α) :
    (l.set n a).set n b = l.set n b := by
  induction l generalizing n with
  | nil => rfl
  | cons x xs ih =>
    cases n with
    | zero => rfl
    | succ m => simp only [List.set]; rw [ih m]

theorem list_set_comm' {α : Type} (l : List α) (m n : Nat) (a b : α) (h : m ≠ n) :
    (l.set m a).set n b = (l.set n b).set m a := by
  induction l generalizing m n with
  | nil => rfl
  | cons x xs ih =>
    cases m with
    | zero =>
      cases n with
      | zero => exact absurd rfl h
      | succ k => rfl
    | succ m1 =>
      cases n with
      | zero => rfl
      | succ k => simpa using ih m1 k (by omega)

theorem list_set_getD_self {α : Type} (l : List α) (n : Nat) (d : α) (h : n < l.length) :
    l.set n (l.getD n d) = l := by
  induction l generalizing n with
  | nil => rfl
  | cons x xs ih =>
    cases n with
    | zero => rfl
    | succ m => simpa using ih m (by simpa using h)

/- ### Grid-level lemmas -/

theorem getCell_setCell_eq (g : Grid) (r c : Nat) (ch : Char) (h : inBounds g r c) :
    getCell (setCell g r c ch) r c = ch := by
  obtain ⟨hr, hc⟩ := h
  unfold getCell setCell
  rw [list_getD_set_eq _ _ _ _ hr, list_getD_set_eq _ _ _ _ hc]

theorem getCell_setCell_ne (g : Grid) (r c r' c' : Nat) (ch : Char)
    (h : (r, c) ≠ (r', c')) :
    getCell (setCell g r c ch) r' c' = getCell g r' c' := by
  unfold getCell setCell
  by_cases hrr : r = r'
  · subst hrr
    have hcc : c ≠ c' := by intro hc; exact h (by rw [hc])
    by_cases hr : r < g.length
    · rw [list_getD_set_eq _ _ _ _ hr, list_getD_set_ne _ _ _ _ _ hcc]
    · rw [list_set_oob _ _ _ (by omega)]
  · rw [list_getD_set_ne _ _ _ _ _ hrr]

theorem setCell_oob (g : Grid) (r c : Nat) (ch : Char) (h : g.length ≤ r) :
    setCell g r c ch = g := by
  unfold setCell; exact list_set_oob _ _ _ h

theorem setCell_setCell_same (g : Grid) (r c : Nat) (a b : Char) :
    setCell (setCell g r c a) r c b = setCell g r c b := by
  by_cases hr : r < g.length
  · unfold setCell
    rw [list_getD_set_eq _ _ _ _ hr, list_set_set_same, list_set_set_same]
  · rw [setCell_oob g r c a (by omega)]

theorem setCell_comm (g : Grid) (r c r' c' : Nat) (a b : Char)
    (h : (r, c) ≠ (r', c')) :
    setCell (setCell g r c a) r' c' b = setCell (setCell g r' c' b) r c a := by
  by_cases hrr : r = r'
  · subst hrr
    have hcc : c ≠ c' := by intro hc; exact h (by rw [hc])
    by_cases hr : r < g.length
    · unfold setCell
      rw [list_getD_set_eq _ _ _ _ hr, list_getD_set_eq _ _ _ _ hr,
        list_set_set_same, list_set_set_same, list_set_comm' _ _ _ _ _ hcc]
    · rw [setCell_oob g r c a (by omega), setCell_oob g r c' b (by omega),
        setCell_oob g r c a (by omega)]
  · unfold setCell
    rw [list_getD_set_ne _ _ _ _ _ hrr, list_getD_set_ne _ _ _ _ _ (Ne.symm hrr),
      list_set_comm' _ _ _ _ _ hrr]

theorem setCell_self (g : Grid) (r c : Nat) (ch : Char)
    (hb : inBounds g r c) (hv : getCell g r c = ch) :
    setCell g r c ch = g := by
  obtain ⟨hr, hc⟩ := hb
  unfold setCell
  unfold getCell at hv
  rw [← hv, list_set_getD_self _ _ _ hc, list_set_getD_self _ _ _ hr]

theorem cellOf_inj (row col : Nat) (d : Dir) (a b : Nat)
    (h : cellOf row col d a = cellOf row col d b) : a = b := by
  cases d <;> simp [cellOf] at h <;> omega

theorem writeWordFrom_cons (g : Grid) (ch : Char) (rest : Word) (row col : Nat)
    (d : Dir) (i : Nat) :
    writeWordFrom g (ch :: rest) row col d i
      = writeWordFrom (setCell g (cellOf row col d i).1 (cellOf row col d i).2 ch)
          rest row col d (i + 1) := rfl

theorem removeWordFrom_cons (g : Grid) (ch : Char) (rest : Word) (row col : Nat)
    (d : Dir) (i : Nat) :
    removeWordFrom g (ch :: rest) row col d i
      = removeWordFrom
          (if getCell g (cellOf row col d i).1 (cellOf row col d i).2 = ch
           then setCell g (cellOf row col d i).1 (cellOf row col d i).2 '.'
           else g)
          rest row col d (i + 1) := rfl

theorem setCell_writeWordFrom_comm (w : Word) (g : Grid) (row col : Nat) (d : Dir)
    (i : Nat) (r c : Nat) (v : Char)
    (h : ∀ t, t < w.length → cellOf row col d (i + t) ≠ (r, c)) :
    setCell (writeWordFrom g w row col d i) r c v
      = writeWordFrom (setCell g r c v) w row col d i := by
  induction w generalizing g i with
  | nil => rfl
  | cons ch rest ih =>
    rw [writeWordFrom_cons, writeWordFrom_cons]
    rw [ih _ (i + 1) (fun t ht => by
      have h2 := h (t + 1) (by simpa using Nat.succ_lt_succ ht)
      have e : i + (t + 1) = i + 1 + t := by omega
      rw [e] at h2; exact h2)]
    rw [setCell_comm _ _ _ _ _ _ _ (by
      have h0 := h 0 (by simp)
      simp only [Nat.add_zero] at h0
      intro hEq
      rw [Prod.mk.eta] at hEq
      exact h0 hEq)]

theorem writeWordFrom_getCell_out (w : Word) (g : Grid) (row col : Nat) (d : Dir)
    (i : Nat) (r c : Nat)
    (h : ∀ t, t < w.length → cellOf row col d (i + t) ≠ (r, c)) :
    getCell (writeWordFrom g w row col d i) r c = getCell g r c := by
  induction w generalizing g i with
  | nil => rfl
  | cons ch rest ih =>
    rw [writeWordFrom_cons]
    rw [ih _ (i + 1) (fun t ht => by
      have h2 := h (t + 1) (by simpa using Nat.succ_lt_succ ht)
      have e : i + (t + 1) = i + 1 + t := by omega
      rw [e] at h2; exact h2)]
    refine getCell_setCell_ne _ _ _ _ _ _ ?_
    have h0 := h 0 (by simp)
    simp only [Nat.add_zero] at h0
    intro hEq
    rw [Prod.mk.eta] at hEq
    exact h0 hEq

theorem remove_write_roundtrip_from (w : Word) (g : Grid) (row col : Nat) (d : Dir)
    (i : Nat)
    (hb : ∀ t, t < w.length →
      inBounds g (cellOf row col d (i + t)).1 (cellOf row col d (i + t)).2)
    (he : ∀ t, t < w.length →
      getCell g (cellOf row col d (i + t)).1 (cellOf row col d (i + t)).2 = '.') :
    removeWordFrom (writeWordFrom g w row col d i) w row col d i = g := by
  induction w generalizing g i with
  | nil => rfl
  | cons ch rest ih =>
    have hb0 := hb 0 (by simp)
    have he0 := he 0 (by simp)
    simp only [Nat.add_zero] at hb0 he0
    have hdist : ∀ t, t < rest.length →
        cellOf row col d (i + 1 + t)
          ≠ ((cellOf row col d i).1, (cellOf row col d i).2) := by
      intro t ht hEq
      rw [Prod.mk.eta] at hEq
      have hij : i + 1 + t = i := cellOf_inj row col d (i + 1 + t) i hEq
      omega
    rw [writeWordFrom_cons, removeWordFrom_cons]
    have hread : getCell
        (writeWordFrom (setCell g (cellOf row col d i).1 (cellOf row col d i).2 ch)
          rest row col d (i + 1)) (cellOf row col d i).1 (cellOf row col d i).2 = ch := by
      rw [writeWordFrom_getCell_out _ _ _ _ _ _ _ _ hdist]
      exact getCell_setCell_eq _ _ _ _ hb0
    rw [if_pos hread]
    rw [setCell_writeWordFrom_comm _ _ _ _ _ _ _ _ _ hdist,
      setCell_setCell_same, setCell_self g _ _ '.' hb0 he0]
    exact ih g (i + 1)
      (fun t ht => by
        have h2 := hb (t + 1) (by simpa using Nat.succ_lt_succ ht)
        have e : i + (t + 1) = i + 1 + t := by omega
        rw [e] at h2; exact h2)
      (fun t ht => by
        have h2 := he (t + 1) (by simpa using Nat.succ_lt_succ ht)
        have e : i + (t + 1) = i + 1 + t := by omega
        rw [e] at h2; exact h2)

/-- Claim C5 (counterexample): as stated, removing after placing does NOT
restore every grid: a covered cell that already held the word's own letter is
reset to '.', not to its previous content. Grid [['C','.','.']], word "CAT"
placed across at (0,0) fits in bounds, yet the round trip yields
[['.','.','.']]. -/
theorem place_remove_roundtrip_counterexample :
    ¬ (removeWord (placeWord [['C', '.', '.']] ['C', 'A', 'T'] 0 0 Dir.across)
        ['C', 'A', 'T'] 0 0 Dir.across = [['C', '.', '.']]) := by decide

/-- Claim C5 (amended): if every cell covered by the placement is in bounds
and EMPTY ('.') before placing, then `remove_word` after `place_word`
restores the grid exactly. -/
theorem place_remove_roundtrip_on_empty_cells (g : Grid) (w : Word) (row col : Nat)
    (d : Dir)
    (h : ∀ t, t < w.length →
      inBounds g (cellOf row col d t).1 (cellOf row col d t).2 ∧
      getCell g (cellOf row col d t).1 (cellOf row col d t).2 = '.') :
    removeWord (placeWord g w row col d) w row col d = g := by
  unfold removeWord placeWord
  exact remove_write_roundtrip_from w g row col d 0
    (fun t ht => by simpa using (h t ht).1)
    (fun t ht => by simpa using (h t ht).2)

/-- Witness for C5's amended theorem at a concrete input. -/
theorem place_remove_roundtrip_on_empty_cells_witness :
    removeWord (placeWord [['.', '.', '.']] ['C', 'A', 'T'] 0 0 Dir.across)
      ['C', 'A', 'T'] 0 0 Dir.across = [['.', '.', '.']] :=
  place_remove_roundtrip_on_empty_cells [['.', '.', '.']] ['C', 'A', 'T'] 0 0 Dir.across
    (by decide)

/- ### Corpus & pattern index (build_word_index, crosswords.py:117) -/

def WordIndex := (Nat × Word) → List Word

/-- The module-global `word_index` defaultdict before any insertion. -/
def emptyIndex : WordIndex := fun _ => []

/-- `word_index[key].extend(ws)` / `.append` on a defaultdict(list). -/
def appendIdx (idx : WordIndex) (k : Nat × Word) (ws : List Word) : WordIndex :=
  fun q => if q = k then idx q ++ ws else idx q

/-- The all-wildcard pattern `"." * length`. -/
def dotsPat (L : Nat) : Word := List.replicate L '.'

/-- The pattern built in the inner loop of build_word_index: start from the
all-wildcard pattern of length L and copy `word[k]` for `k` in `[i, j)`. -/
def mkPattern (L i j : Nat) (w : Word) : Word :=
  (List.range L).map (fun k => if i ≤ k ∧ k < j then w.getD k '.' else '.')

/-- The index pairs of the nested loops
`for i in range(length): for j in range(i + 1, length + 1)`. -/
def subrangePairs (L : Nat) : List (Nat × Nat) :=
  (List.range L).flatMap (fun i => (List.range' (i + 1) (L - i)).map (fun j => (i, j)))

/-- Per-word body of `build_word_index`: register the full-word key, then one
key per sub-range pattern. -/
def indexWord (L : Nat) (w : Word) (idx : WordIndex) : WordIndex :=
  (subrangePairs L).foldl
    (fun m ij => appendIdx m (L, mkPattern L ij.1 ij.2 w) [w])
    (appendIdx idx (L, w) [w])

/-- Per-length body of `build_word_index`: register the all-wildcard key with
every word of this length, then index each word. -/
def indexLength (idx : WordIndex) (L : Nat) (ws : List Word) : WordIndex :=
  ws.foldl (fun m w => indexWord L w m) (appendIdx idx (L, dotsPat L) ws)

/-- `build_word_index(words_by_length)` (crosswords.py:117): the dict
`words_by_length` is modelled as an association list with distinct keys. -/
def buildWordIndex (wbl : List (Nat × List Word)) : WordIndex :=
  wbl.foldl (fun m lw => indexLength m lw.1 lw.2) emptyIndex

/-- A word matches a pattern: same length, and every non-wildcard position of
the pattern agrees with the word. -/
def matchesPattern (p w : Word) : Bool :=
  p.length == w.length &&
  (List.range p.length).all (fun k => p.getD k '.' == '.' || p.getD k '.' == w.getD k '.')

/-- Well-formedness delivered by `load_words`: a bucket word has exactly the
bucket's length and consists of uppercase letters only. -/
abbrev wfWord (L : Nat) (w : Word) : Prop :=
  w.length = L ∧ ∀ c ∈ w, 'A' ≤ c ∧ c ≤ 'Z'

abbrev wfBuckets (wbl : List (Nat × List Word)) : Prop :=
  ∀ e ∈ wbl, ∀ w ∈ e.2, wfWord e.1 w

/- ### Index lemmas -/

theorem appendIdx_self (idx : WordIndex) (k : Nat × Word) (ws : List Word) :
    appendIdx idx k ws k = idx k ++ ws := by simp [appendIdx]

theorem appendIdx_ne (idx : WordIndex) (k q : Nat × Word) (ws : List Word)
    (h : q ≠ k) : appendIdx idx k ws q = idx q := by simp [appendIdx, h]

theorem foldl_appendIdx_apply {β : Type} (ps : List β) (f : β → Nat × Word)
    (w : Word) (idx : WordIndex) (q : Nat × Word) :
    (ps.foldl (fun m p => appendIdx m (f p) [w]) idx) q
      = idx q ++ List.replicate ((ps.filter (fun p => decide (f p = q))).length) w := by
  induction ps generalizing idx with
  | nil => simp
  | cons p ps ih =>
    simp only [List.foldl_cons, List.filter_cons]
    rw [ih]
    by_cases h : f p = q
    · have hq : q = f p := h.symm
      rw [hq, appendIdx_self]
      simp [h, List.replicate_succ, List.append_assoc]
    · rw [appendIdx_ne _ _ _ _ (fun hqe => h hqe.symm)]
      simp [h]

theorem dotsPat_length (L : Nat) : (dotsPat L).length = L := by simp [dotsPat]

theorem dotsPat_getD (L k : Nat) : (dotsPat L).getD k '.' = '.' := by
  unfold dotsPat
  by_cases h : k < L
  · rw [List.getD_eq_getElem _ _ (by simpa using h)]
    simp
  · rw [List.getD_eq_default _ _ (by simpa using Nat.le_of_not_lt h)]

theorem mkPattern_length (L i j : Nat) (w : Word) : (mkPattern L i j w).length = L := by
  simp [mkPattern]

theorem mkPattern_getD (L i j k : Nat) (w : Word) (hk : k < L) :
    (mkPattern L i j w).getD k '.'
      = if i ≤ k ∧ k < j then w.getD k '.' else '.' := by
  unfold mkPattern
  rw [List.getD_eq_getElem _ _ (by simpa using hk)]
  simp

theorem mkPattern_getD_oob (L i j k : Nat) (w : Word) (hk : L ≤ k) :
    (mkPattern L i j w).getD k '.' = '.' := by
  unfold mkPattern
  rw [List.getD_eq_default _ _ (by simpa using hk)]

theorem upper_ne_dot {c : Char} (h1 : 'A' ≤ c) (h2 : c ≤ 'Z') : c ≠ '.' := by
  intro hc
  subst hc
  exact absurd h1 (by decide)

theorem wfWord_getD_ne_dot {L : Nat} {w : Word} (hw : wfWord L w) (k : Nat)
    (hk : k < L) : w.getD k '.' ≠ '.' := by
  obtain ⟨hlen, halpha⟩ := hw
  have hkw : k < w.length := by omega
  rw [List.getD_eq_getElem _ _ hkw]
  have hmem : w[k] ∈ w := List.getElem_mem hkw
  exact upper_ne_dot (halpha _ hmem).1 (halpha _ hmem).2

theorem subrangePairs_mem (L : Nat) (p : Nat × Nat) :
    p ∈ subrangePairs L ↔ p.1 < p.2 ∧ p.2 ≤ L := by
  unfold subrangePairs
  simp only [List.mem_flatMap, List.mem_map, List.mem_range, List.mem_range'_1]
  constructor
  · rintro ⟨i, hi, j, ⟨hj1, hj2⟩, rfl⟩
    constructor
    · simpa using hj1
    · simp only []
      omega
  · rintro ⟨h1, h2⟩
    exact ⟨p.1, by omega, p.2, ⟨by omega, by omega⟩, by simp⟩

theorem subrangePairs_nodup (L : Nat) : (subrangePairs L).Nodup := by
  unfold subrangePairs
  rw [List.nodup_flatMap]
  constructor
  · intro i _
    exact (List.nodup_range' _ _).map (fun a b h => by
      have : a = b := congrArg Prod.snd h
      exact this)
  · have hr : (List.range L).Nodup := List.nodup_range L
    refine List.Pairwise.imp ?_ hr
    intro a b hab
    intro x hxa hxb
    simp only [List.mem_map] at hxa hxb
    obtain ⟨ja, _, rfl⟩ := hxa
    obtain ⟨jb, _, hEq⟩ := hxb
    exact hab (congrArg Prod.fst hEq).symm

theorem mkPattern_full (L : Nat) (w : Word) (hw : w.length = L) :
    mkPattern L 0 L w = w := by
  apply List.ext_getElem
  · rw [mkPattern_length, hw]
  · intro k h1 h2
    have hkL : k < L := by rwa [mkPattern_length] at h1
    unfold mkPattern
    simp only [List.getElem_map, List.getElem_range]
    rw [if_pos ⟨Nat.zero_le k, hkL⟩]
    exact List.getD_eq_getElem _ _ h2

theorem matchesPattern_iff (p w : Word) :
    matchesPattern p w = true ↔
      (p.length = w.length ∧
        ∀ k, k < p.length → (p.getD k '.' = '.' ∨ p.getD k '.' = w.getD k '.')) := by
  unfold matchesPattern
  simp [List.all_eq_true]

theorem filter_eq_single {α : Type} [DecidableEq α] (l : List α) (a : α)
    (hnd : l.Nodup) (hmem : a ∈ l) :
    (l.filter (fun x => decide (x = a))).length = 1 := by
  induction l with
  | nil => simp at hmem
  | cons x xs ih =>
    have hx : x ∉ xs := (List.nodup_cons.mp hnd).1
    have hxs : xs.Nodup := (List.nodup_cons.mp hnd).2
    rcases List.mem_cons.mp hmem with rfl | hmem2
    · have hnone : xs.filter (fun y => decide (y = a)) = [] := by
        rw [List.filter_eq_nil_iff]
        intro b hb
        simp only [decide_eq_true_eq]
        intro hba
        exact hx (hba ▸ hb)
      simp [List.filter_cons, hnone]
    · have hxa : x ≠ a := fun hEq => hx (hEq ▸ hmem2)
      simp [List.filter_cons, hxa, ih hxs hmem2]

theorem list_ne_of_getD_ne {p q : Word} (k : Nat) (h : p.getD k '.' ≠ q.getD k '.') :
    p ≠ q := fun hEq => h (by rw [hEq])

/-- Characterization of the generated sub-range patterns: for a pattern `P`
whose fixed letters occupy exactly the positions `[i, j)`, the pattern
generated for `w` from the sub-range `[i', j')` equals `P` exactly when the
ranges coincide and `w` matches `P`. -/
theorem mkPattern_eq_iff (L i j : Nat) (P : Word)
    (hij : i < j) (hjL : j ≤ L) (hPlen : P.length = L)
    (hfix : ∀ k, i ≤ k → k < j → P.getD k '.' ≠ '.')
    (hdot : ∀ k, k < L → ¬(i ≤ k ∧ k < j) → P.getD k '.' = '.')
    (w : Word) (hw : wfWord L w)
    (i' j' : Nat) (hij' : i' < j') (hj'L : j' ≤ L) :
    mkPattern L i' j' w = P ↔ (i' = i ∧ j' = j ∧ matchesPattern P w = true) := by
  constructor
  · intro h
    have hgd : ∀ k, k < L → P.getD k '.'
        = if i' ≤ k ∧ k < j' then w.getD k '.' else '.' := by
      intro k hk
      rw [← h, mkPattern_getD _ _ _ _ _ hk]
    have hii : i ≤ i' ∧ i' < j := by
      by_contra hcon
      have h1 := hdot i' (by omega) hcon
      rw [hgd i' (by omega)] at h1
      rw [if_pos ⟨Nat.le_refl i', hij'⟩] at h1
      exact wfWord_getD_ne_dot hw i' (by omega) h1
    have hi'i : i' ≤ i := by
      by_contra hcon
      have h1 := hfix i (Nat.le_refl i) hij
      rw [hgd i (by omega)] at h1
      rw [if_neg (by omega)] at h1
      exact h1 rfl
    have hiEq : i' = i := by omega
    have hj'j : j' ≤ j := by
      have h1 : ¬¬(i ≤ j' - 1 ∧ j' - 1 < j) := by
        intro hcon
        have h2 := hdot (j' - 1) (by omega) hcon
        rw [hgd (j' - 1) (by omega)] at h2
        rw [if_pos (by omega)] at h2
        exact wfWord_getD_ne_dot hw (j' - 1) (by omega) h2
      omega
    have hjj' : j ≤ j' := by
      by_contra hcon
      have h1 := hfix (j - 1) (by omega) (by omega)
      rw [hgd (j - 1) (by omega)] at h1
      rw [if_neg (by omega)] at h1
      exact h1 rfl
    have hjEq : j' = j := by omega
    refine ⟨hiEq, hjEq, ?_⟩
    rw [matchesPattern_iff]
    refine ⟨by rw [hPlen, hw.1], ?_⟩
    intro k hk
    have hkL : k < L := by rwa [hPlen] at hk
    by_cases hkr : i ≤ k ∧ k < j
    · right
      rw [hgd k hkL, if_pos (by omega)]
    · left
      exact hdot k hkL hkr
  · rintro ⟨rfl, rfl, hm⟩
    obtain ⟨hmlen, hmk⟩ := (matchesPattern_iff P w).mp hm
    apply List.ext_getElem
    · rw [mkPattern_length, hPlen]
    · intro k h1 h2
      have hkL : k < L := by rwa [mkPattern_length] at h1
      have e1 : (mkPattern L i' j' w)[k] = (mkPattern L i' j' w).getD k '.' :=
        (List.getD_eq_getElem _ _ h1).symm
      have e2 : P[k] = P.getD k '.' := (List.getD_eq_getElem _ _ h2).symm
      rw [e1, e2, mkPattern_getD _ _ _ _ _ hkL]
      by_cases hk : i' ≤ k ∧ k < j'
      · rw [if_pos hk]
        rcases hmk k (by omega) with hd | hv
        · exact absurd hd (hfix k hk.1 hk.2)
        · exact hv.symm
      · rw [if_neg hk]
        exact (hdot k hkL hk).symm

theorem indexWord_apply_ne_fst (L' L : Nat) (hne : L' ≠ L) (w' : Word)
    (idx : WordIndex) (q : Word) :
    indexWord L' w' idx (L, q) = idx (L, q) := by
  unfold indexWord
  rw [foldl_appendIdx_apply]
  have hval : ∀ p ∈ subrangePairs L',
      (decide ((L', mkPattern L' p.1 p.2 w') = (L, q))) = false := by
    intro p _
    simp only [decide_eq_false_iff_not, Prod.mk.injEq, not_and]
    intro hL
    exact absurd hL hne
  rw [List.filter_congr hval]
  rw [appendIdx_ne _ _ _ _ (by
    intro hEq
    exact hne (congrArg Prod.fst hEq).symm)]
  simp

theorem indexWord_apply_dots (L : Nat) (w : Word) (idx : WordIndex)
    (hw : wfWord L w) (hL : 0 < L) :
    indexWord L w idx (L, dotsPat L) = idx (L, dotsPat L) := by
  unfold indexWord
  rw [foldl_appendIdx_apply]
  have hval : ∀ p ∈ subrangePairs L,
      (decide ((L, mkPattern L p.1 p.2 w) = (L, dotsPat L))) = false := by
    intro p hp
    obtain ⟨h1, h2⟩ := (subrangePairs_mem L p).mp hp
    simp only [decide_eq_false_iff_not, Prod.mk.injEq, true_and]
    apply list_ne_of_getD_ne p.1
    rw [mkPattern_getD _ _ _ _ _ (by omega), if_pos ⟨Nat.le_refl _, h1⟩, dotsPat_getD]
    exact wfWord_getD_ne_dot hw p.1 (by omega)
  rw [List.filter_congr hval]
  rw [appendIdx_ne _ _ _ _ (by
    intro hEq
    have hq : dotsPat L = w := congrArg Prod.snd hEq
    exact wfWord_getD_ne_dot hw 0 hL (by rw [← hq, dotsPat_getD]))]
  simp

/-- Contribution of one indexed word to the bucket of a proper contiguous
pattern key: the word is appended exactly once when it matches. -/
theorem indexWord_apply_proper (L i j : Nat) (P : Word)
    (hij : i < j) (hjL : j ≤ L) (hproper : 0 < i ∨ j < L) (hPlen : P.length = L)
    (hfix : ∀ k, i ≤ k → k < j → P.getD k '.' ≠ '.')
    (hdot : ∀ k, k < L → ¬(i ≤ k ∧ k < j) → P.getD k '.' = '.')
    (w : Word) (hw : wfWord L w) (idx : WordIndex) :
    indexWord L w idx (L, P)
      = idx (L, P) ++ (if matchesPattern P w then [w] else []) := by
  unfold indexWord
  rw [foldl_appendIdx_apply]
  have hPw : P ≠ w := by
    rcases hproper with h0 | hJ
    · refine list_ne_of_getD_ne 0 ?_
      rw [hdot 0 (by omega) (by omega)]
      exact (wfWord_getD_ne_dot hw 0 (by omega)).symm
    · refine list_ne_of_getD_ne j ?_
      rw [hdot j hJ (by omega)]
      exact (wfWord_getD_ne_dot hw j hJ).symm
  rw [appendIdx_ne _ _ _ _ (by
    intro hEq
    exact hPw (congrArg Prod.snd hEq))]
  have hval : ∀ p ∈ subrangePairs L,
      (decide ((L, mkPattern L p.1 p.2 w) = (L, P)))
        = (decide (p = (i, j)) && matchesPattern P w) := by
    intro p hp
    obtain ⟨h1, h2⟩ := (subrangePairs_mem L p).mp hp
    have hiff := mkPattern_eq_iff L i j P hij hjL hPlen hfix hdot w hw p.1 p.2 h1 h2
    by_cases hm : mkPattern L p.1 p.2 w = P
    · obtain ⟨hi, hj, hmt⟩ := hiff.mp hm
      have hpij : p = (i, j) := by
        cases p
        simp only [Prod.mk.injEq]
        exact ⟨hi, hj⟩
      rw [hpij] at hm
      rw [hpij]
      simp [hm, hmt]
    · have hside : ¬(p = (i, j) ∧ matchesPattern P w = true) := by
        rintro ⟨rfl, hmt⟩
        exact hm (hiff.mpr ⟨rfl, rfl, hmt⟩)
      rcases Decidable.not_and_iff_or_not.mp hside with hp1 | hp2
      · simp [hm, hp1]
      · simp [hm, hp2]
  rw [List.filter_congr hval]
  by_cases hmt : matchesPattern P w
  · have hone : (List.filter (fun p => decide (p = (i, j)) && matchesPattern P w)
        (subrangePairs L)).length = 1 := by
      have hcg : ∀ p ∈ subrangePairs L,
          (decide (p = (i, j)) && matchesPattern P w) = decide (p = (i, j)) := by
        intro p _
        rw [hmt]
        simp
      rw [List.filter_congr hcg]
      exact filter_eq_single _ _ (subrangePairs_nodup L)
        ((subrangePairs_mem L (i, j)).mpr ⟨hij, hjL⟩)
    rw [hone, hmt]
    simp [List.replicate_succ]
  · have hnone : (List.filter (fun p => decide (p = (i, j)) && matchesPattern P w)
        (subrangePairs L)).length = 0 := by
      have hcg : ∀ p ∈ subrangePairs L,
          (decide (p = (i, j)) && matchesPattern P w) = false := by
        intro p _
        rw [Bool.eq_false_iff.mpr hmt]
        simp
      rw [List.filter_congr hcg]
      simp
    rw [hnone]
    have hmf : matchesPattern P w = false := Bool.eq_false_iff.mpr hmt
    rw [hmf]
    simp

theorem foldl_indexWord_dots (L : Nat) (ws : List Word) (idx : WordIndex)
    (hwf : ∀ w ∈ ws, wfWord L w) (hL : 0 < L) :
    (ws.foldl (fun m w => indexWord L w m) idx) (L, dotsPat L)
      = idx (L, dotsPat L) := by
  induction ws generalizing idx with
  | nil => rfl
  | cons w rest ih =>
    simp only [List.foldl_cons]
    rw [ih _ (fun w' hw' => hwf w' (List.mem_cons_of_mem _ hw'))]
    exact indexWord_apply_dots L w idx (hwf w (List.mem_cons_self _ _)) hL

theorem foldl_indexWord_ne_fst (L' L : Nat) (hne : L' ≠ L) (ws : List Word)
    (idx : WordIndex) (q : Word) :
    (ws.foldl (fun m w => indexWord L' w m) idx) (L, q) = idx (L, q) := by
  induction ws generalizing idx with
  | nil => rfl
  | cons w rest ih =>
    simp only [List.foldl_cons]
    rw [ih]
    exact indexWord_apply_ne_fst L' L hne w idx q

theorem foldl_indexWord_proper (L i j : Nat) (P : Word)
    (hij : i < j) (hjL : j ≤ L) (hproper : 0 < i ∨ j < L) (hPlen : P.length = L)
    (hfix : ∀ k, i ≤ k → k < j → P.getD k '.' ≠ '.')
    (hdot : ∀ k, k < L → ¬(i ≤ k ∧ k < j) → P.getD k '.' = '.')
    (ws : List Word) (idx : WordIndex) (hwf : ∀ w ∈ ws, wfWord L w) :
    (ws.foldl (fun m w => indexWord L w m) idx) (L, P)
      = idx (L, P) ++ ws.filter (fun w => matchesPattern P w) := by
  induction ws generalizing idx with
  | nil => simp
  | cons w rest ih =>
    simp only [List.foldl_cons, List.filter_cons]
    rw [ih _ (fun w' hw' => hwf w' (List.mem_cons_of_mem _ hw'))]
    rw [indexWord_apply_proper L i j P hij hjL hproper hPlen hfix hdot w
      (hwf w (List.mem_cons_self _ _)) idx]
    by_cases hm : matchesPattern P w
    · rw [hm]
      simp [List.append_assoc]
    · rw [Bool.eq_false_iff.mpr hm]
      simp

theorem indexLength_apply_dots_self (idx : WordIndex) (L : Nat) (ws : List Word)
    (hwf : ∀ w ∈ ws, wfWord L w) (hL : 0 < L) :
    indexLength idx L ws (L, dotsPat L) = idx (L, dotsPat L) ++ ws := by
  unfold indexLength
  rw [foldl_indexWord_dots L ws _ hwf hL, appendIdx_self]

theorem indexLength_apply_ne_fst (idx : WordIndex) (L' L : Nat) (hne : L' ≠ L)
    (ws : List Word) (q : Word) :
    indexLength idx L' ws (L, q) = idx (L, q) := by
  unfold indexLength
  rw [foldl_indexWord_ne_fst L' L hne ws _ q]
  exact appendIdx_ne _ _ _ _ (by
    intro hEq
    exact hne (congrArg Prod.fst hEq).symm)

theorem indexLength_apply_proper (idx : WordIndex) (L i j : Nat) (P : Word)
    (hij : i < j) (hjL : j ≤ L) (hproper : 0 < i ∨ j < L) (hPlen : P.length = L)
    (hfix : ∀ k, i ≤ k → k < j → P.getD k '.' ≠ '.')
    (hdot : ∀ k, k < L → ¬(i ≤ k ∧ k < j) → P.getD k '.' = '.')
    (ws : List Word) (hwf : ∀ w ∈ ws, wfWord L w) :
    indexLength idx L ws (L, P)
      = idx (L, P) ++ ws.filter (fun w => matchesPattern P w) := by
  unfold indexLength
  rw [foldl_indexWord_proper L i j P hij hjL hproper hPlen hfix hdot ws _ hwf]
  rw [appendIdx_ne _ _ _ _ (by
    intro hEq
    have hq : P = dotsPat L := congrArg Prod.snd hEq
    have h1 := hfix i (Nat.le_refl i) hij
    rw [hq, dotsPat_getD] at h1
    exact h1 rfl)]

theorem foldl_entries_ne (entries : List (Nat × List Word)) (idx : WordIndex)
    (L : Nat) (q : Word) (habs : ∀ e ∈ entries, e.1 ≠ L) :
    (entries.foldl (fun m lw => indexLength m lw.1 lw.2) idx) (L, q) = idx (L, q) := by
  induction entries generalizing idx with
  | nil => rfl
  | cons e rest ih =>
    simp only [List.foldl_cons]
    rw [ih _ (fun e' he' => habs e' (List.mem_cons_of_mem _ he'))]
    exact indexLength_apply_ne_fst idx e.1 L (habs e (List.mem_cons_self _ _)) e.2 q

theorem nodup_fst_mem_unique {α β : Type} (l : List (α × β))
    (hnd : (l.map Prod.fst).Nodup) (a b : α × β) (ha : a ∈ l) (hb : b ∈ l)
    (hab : a.1 = b.1) : a = b := by
  induction l with
  | nil => simp at ha
  | cons x rest ih =>
    have hnd2 : (x.1 :: rest.map Prod.fst).Nodup := by
      rw [List.map_cons] at hnd
      exact hnd
    have hx : x.1 ∉ rest.map Prod.fst := (List.nodup_cons.mp hnd2).1
    have hrest : (rest.map Prod.fst).Nodup := (List.nodup_cons.mp hnd2).2
    rcases List.mem_cons.mp ha with rfl | ha2
    · rcases List.mem_cons.mp hb with rfl | hb2
      · rfl
      · exact absurd (hab ▸ List.mem_map_of_mem Prod.fst hb2) hx
    · rcases List.mem_cons.mp hb with rfl | hb2
      · exact absurd (hab ▸ List.mem_map_of_mem Prod.fst ha2) hx
      · exact ih hrest ha2 hb2

theorem foldl_entries_dots (L : Nat) (ws : List Word)
    (entries : List (Nat × List Word)) (idx : WordIndex)
    (hnd : (entries.map Prod.fst).Nodup)
    (hwf : ∀ e ∈ entries, ∀ w ∈ e.2, wfWord e.1 w)
    (hmem : (L, ws) ∈ entries) (hL : 0 < L) :
    (entries.foldl (fun m lw => indexLength m lw.1 lw.2) idx) (L, dotsPat L)
      = idx (L, dotsPat L) ++ ws := by
  induction entries generalizing idx with
  | nil => simp at hmem
  | cons e rest ih =>
    have hnd2 : (e.1 :: rest.map Prod.fst).Nodup := by
      rw [List.map_cons] at hnd
      exact hnd
    have hx : e.1 ∉ rest.map Prod.fst := (List.nodup_cons.mp hnd2).1
    have hrest : (rest.map Prod.fst).Nodup := (List.nodup_cons.mp hnd2).2
    simp only [List.foldl_cons]
    rcases List.mem_cons.mp hmem with rfl | hmem2
    · have hx2 : L ∉ rest.map Prod.fst := hx
      rw [foldl_entries_ne rest _ L (dotsPat L) (fun e' he' hq =>
        hx2 (hq ▸ List.mem_map_of_mem Prod.fst he'))]
      exact indexLength_apply_dots_self idx L ws
        (fun w hw => hwf (L, ws) (List.mem_cons_self _ _) w hw) hL
    · have he1 : e.1 ≠ L := by
        intro hq
        apply hx
        rw [hq]
        exact List.mem_map_of_mem Prod.fst hmem2
      rw [ih _ hrest (fun e' he' => hwf e' (List.mem_cons_of_mem _ he')) hmem2]
      rw [indexLength_apply_ne_fst idx e.1 L he1 e.2 (dotsPat L)]

theorem foldl_entries_proper (L i j : Nat) (P : Word) (ws : List Word)
    (hij : i < j) (hjL : j ≤ L) (hproper : 0 < i ∨ j < L) (hPlen : P.length = L)
    (hfix : ∀ k, i ≤ k → k < j → P.getD k '.' ≠ '.')
    (hdot : ∀ k, k < L → ¬(i ≤ k ∧ k < j) → P.getD k '.' = '.')
    (entries : List (Nat × List Word)) (idx : WordIndex)
    (hnd : (entries.map Prod.fst).Nodup)
    (hwf : ∀ e ∈ entries, ∀ w ∈ e.2, wfWord e.1 w)
    (hmem : (L, ws) ∈ entries) :
    (entries.foldl (fun m lw => indexLength m lw.1 lw.2) idx) (L, P)
      = idx (L, P) ++ ws.filter (fun w => matchesPattern P w) := by
  induction entries generalizing idx with
  | nil => simp at hmem
  | cons e rest ih =>
    have hnd2 : (e.1 :: rest.map Prod.fst).Nodup := by
      rw [List.map_cons] at hnd
      exact hnd
    have hx : e.1 ∉ rest.map Prod.fst := (List.nodup_cons.mp hnd2).1
    have hrest : (rest.map Prod.fst).Nodup := (List.nodup_cons.mp hnd2).2
    simp only [List.foldl_cons]
    rcases List.mem_cons.mp hmem with rfl | hmem2
    · have hx2 : L ∉ rest.map Prod.fst := hx
      rw [foldl_entries_ne rest _ L P (fun e' he' hq =>
        hx2 (hq ▸ List.mem_map_of_mem Prod.fst he'))]
      exact indexLength_apply_proper idx L i j P hij hjL hproper hPlen hfix hdot ws
        (fun w hw => hwf (L, ws) (List.mem_cons_self _ _) w hw)
    · have he1 : e.1 ≠ L := by
        intro hq
        apply hx
        rw [hq]
        exact List.mem_map_of_mem Prod.fst hmem2
      rw [ih _ hrest (fun e' he' => hwf e' (List.mem_cons_of_mem _ he')) hmem2]
      rw [indexLength_apply_ne_fst idx e.1 L he1 e.2 P]

/- ### Append-only (suffix) lemmas for the index folds -/

theorem indexWord_suffix (L' : Nat) (w' : Word) (idx : WordIndex) (q : Nat × Word) :
    ∃ t, indexWord L' w' idx q = idx q ++ t := by
  unfold indexWord
  rw [foldl_appendIdx_apply]
  by_cases hq : q = (L', w')
  · subst hq
    rw [appendIdx_self]
    exact ⟨_, List.append_assoc _ _ _⟩
  · rw [appendIdx_ne _ _ _ _ hq]
    exact ⟨_, rfl⟩

theorem foldl_indexWord_suffix (L' : Nat) (ws : List Word) (idx : WordIndex)
    (q : Nat × Word) :
    ∃ t, (ws.foldl (fun m w => indexWord L' w m) idx) q = idx q ++ t := by
  induction ws generalizing idx with
  | nil => exact ⟨[], by simp⟩
  | cons w rest ih =>
    simp only [List.foldl_cons]
    obtain ⟨t1, ht1⟩ := indexWord_suffix L' w idx q
    obtain ⟨t2, ht2⟩ := ih (indexWord L' w idx)
    exact ⟨t1 ++ t2, by rw [ht2, ht1, List.append_assoc]⟩

theorem indexLength_suffix (idx : WordIndex) (L' : Nat) (ws : List Word)
    (q : Nat × Word) :
    ∃ t, indexLength idx L' ws q = idx q ++ t := by
  unfold indexLength
  obtain ⟨t2, ht2⟩ := foldl_indexWord_suffix L' ws (appendIdx idx (L', dotsPat L') ws) q
  by_cases hq : q = (L', dotsPat L')
  · subst hq
    rw [ht2, appendIdx_self]
    exact ⟨_, List.append_assoc _ _ _⟩
  · rw [ht2, appendIdx_ne _ _ _ _ hq]
    exact ⟨_, rfl⟩

theorem foldl_entries_suffix (entries : List (Nat × List Word)) (idx : WordIndex)
    (q : Nat × Word) :
    ∃ t, (entries.foldl (fun m lw => indexLength m lw.1 lw.2) idx) q = idx q ++ t := by
  induction entries generalizing idx with
  | nil => exact ⟨[], by simp⟩
  | cons e rest ih =>
    simp only [List.foldl_cons]
    obtain ⟨t1, ht1⟩ := indexLength_suffix idx e.1 e.2 q
    obtain ⟨t2, ht2⟩ := ih (indexLength idx e.1 e.2)
    exact ⟨t1 ++ t2, by rw [ht2, ht1, List.append_assoc]⟩

theorem filter_replicate_self (n : Nat) (w : Word) :
    (List.replicate n w).filter (fun x => decide (x = w)) = List.replicate n w := by
  induction n with
  | zero => rfl
  | succ m ih => simp [List.replicate_succ, List.filter_cons, ih]

/-- Indexing a word appends it at least twice to its own full-word key: once
from the explicit full-word registration and once from the sub-range `[0, L)`
(whose generated pattern is the word itself). -/
theorem indexWord_self_count (L : Nat) (w : Word) (idx : WordIndex)
    (hwLen : w.length = L) (hL : 0 < L) :
    ((idx (L, w)).filter (fun x => decide (x = w))).length + 2
      ≤ ((indexWord L w idx (L, w)).filter (fun x => decide (x = w))).length := by
  unfold indexWord
  rw [foldl_appendIdx_apply, appendIdx_self]
  have hcnt : 0 < ((subrangePairs L).filter
      (fun p => decide ((L, mkPattern L p.1 p.2 w) = (L, w)))).length := by
    have hmem : (0, L) ∈ (subrangePairs L).filter
        (fun p => decide ((L, mkPattern L p.1 p.2 w) = (L, w))) := by
      rw [List.mem_filter]
      refine ⟨(subrangePairs_mem L (0, L)).mpr ⟨hL, Nat.le_refl L⟩, ?_⟩
      simp [mkPattern_full L w hwLen]
    exact List.length_pos_of_mem hmem
  rw [List.filter_append, List.filter_append, List.length_append, List.length_append]
  rw [filter_replicate_self]
  have h1 : ([w].filter (fun x => decide (x = w))).length = 1 := by simp
  rw [h1, List.length_replicate]
  omega

/-- Claim C10: for every indexed word `w` of length `L`, the bucket of the
fully-fixed key equal to `w` itself contains `w` at least twice (explicit
full-word append plus the sub-range `[0, L)` append), so a fully-fixed lookup
can return duplicate candidates. -/
theorem indexLength_self_two (idx : WordIndex) (L : Nat) (ws : List Word)
    (w : Word) (hw : w ∈ ws) (hwLen : w.length = L) (hL : 0 < L) :
    2 ≤ ((indexLength idx L ws (L, w)).filter (fun x => decide (x = w))).length := by
  unfold indexLength
  obtain ⟨u, v, rfl⟩ := List.append_of_mem hw
  rw [List.foldl_append]
  simp only [List.foldl_cons]
  obtain ⟨t4, ht4⟩ := foldl_indexWord_suffix L v
    (indexWord L w (u.foldl (fun m x => indexWord L x m)
      (appendIdx idx (L, dotsPat L) (u ++ w :: v)))) (L, w)
  rw [ht4, List.filter_append, List.length_append]
  have h5 := indexWord_self_count L w
    (u.foldl (fun m x => indexWord L x m)
      (appendIdx idx (L, dotsPat L) (u ++ w :: v))) hwLen hL
  omega

/-- Claim C10: for every indexed word `w` of length `L`, the bucket of the
fully-fixed key equal to `w` itself contains `w` at least twice (explicit
full-word append plus the sub-range `[0, L)` append), so a fully-fixed lookup
can return duplicate candidates. -/
theorem fullword_bucket_duplicate (wbl : List (Nat × List Word)) (L : Nat)
    (ws : List Word) (hmem : (L, ws) ∈ wbl) (w : Word) (hw : w ∈ ws)
    (hwLen : w.length = L) (hL : 0 < L) :
    2 ≤ ((buildWordIndex wbl (L, w)).filter (fun x => decide (x = w))).length := by
  obtain ⟨s, t, rfl⟩ := List.append_of_mem hmem
  unfold buildWordIndex
  rw [List.foldl_append]
  simp only [List.foldl_cons]
  obtain ⟨t3, ht3⟩ := foldl_entries_suffix t
    (indexLength (s.foldl (fun m lw => indexLength m lw.1 lw.2) emptyIndex) L ws) (L, w)
  rw [ht3, List.filter_append, List.length_append]
  have h2 := indexLength_self_two
    (s.foldl (fun m lw => indexLength m lw.1 lw.2) emptyIndex) L ws w hw hwLen hL
  omega

/-- Claim C2: for every length bucket of the loaded corpus, the index entry
for the all-wildcard pattern contains exactly the bucket (and hence exactly
the set of corpus words of that length). -/
theorem buildWordIndex_allWildcard_complete
    (wbl : List (Nat × List Word))
    (hnd : (wbl.map Prod.fst).Nodup) (hwf : wfBuckets wbl)
    (L : Nat) (ws : List Word) (hmem : (L, ws) ∈ wbl) (hL : 0 < L) :
    buildWordIndex wbl (L, dotsPat L) = ws ∧
    (∀ w, w ∈ buildWordIndex wbl (L, dotsPat L)
        ↔ (w ∈ wbl.flatMap Prod.snd ∧ w.length = L)) := by
  have h1 : buildWordIndex wbl (L, dotsPat L) = ws := by
    unfold buildWordIndex
    rw [foldl_entries_dots L ws wbl emptyIndex hnd hwf hmem hL]
    rfl
  refine ⟨h1, ?_⟩
  intro w
  rw [h1]
  constructor
  · intro hwmem
    exact ⟨List.mem_flatMap.mpr ⟨(L, ws), hmem, hwmem⟩, (hwf (L, ws) hmem w hwmem).1⟩
  · rintro ⟨hwc, hlen⟩
    obtain ⟨e, he, hwe⟩ := List.mem_flatMap.mp hwc
    have heL : e.1 = L := by rw [← (hwf e he w hwe).1, hlen]
    have heq : e = (L, ws) :=
      nodup_fst_mem_unique wbl hnd e (L, ws) he hmem (by rw [heL])
    rw [heq] at hwe
    exact hwe

def wblCat : List (Nat × List Word) := [(3, [['C', 'A', 'T']])]

/-- Witness for C2 at a concrete one-bucket corpus. -/
theorem buildWordIndex_allWildcard_complete_witness :
    buildWordIndex wblCat (3, dotsPat 3) = [['C', 'A', 'T']] ∧
    (∀ w, w ∈ buildWordIndex wblCat (3, dotsPat 3)
        ↔ (w ∈ wblCat.flatMap Prod.snd ∧ w.length = 3)) :=
  buildWordIndex_allWildcard_complete wblCat (by decide) (by decide)
    3 [['C', 'A', 'T']] (by decide) (by decide)

/-- Claim C4 (amended): for keys the index actually generates - patterns
whose fixed letters occupy one contiguous proper sub-range `[i, j)` of the
slot - the lookup returns exactly the matching bucket words, in bucket order
(the order words were inserted, not a frequency order). -/
theorem lookup_contiguous_pattern_characterization
    (wbl : List (Nat × List Word))
    (hnd : (wbl.map Prod.fst).Nodup) (hwf : wfBuckets wbl)
    (L : Nat) (ws : List Word) (hmem : (L, ws) ∈ wbl)
    (i j : Nat) (P : Word)
    (hij : i < j) (hjL : j ≤ L) (hproper : 0 < i ∨ j < L) (hPlen : P.length = L)
    (hfix : ∀ k, k < j → i ≤ k → P.getD k '.' ≠ '.')
    (hdot : ∀ k, k < L → ¬(i ≤ k ∧ k < j) → P.getD k '.' = '.') :
    buildWordIndex wbl (L, P) = ws.filter (fun w => matchesPattern P w) := by
  unfold buildWordIndex
  rw [foldl_entries_proper L i j P ws hij hjL hproper hPlen
    (fun k h1 h2 => hfix k h2 h1) hdot wbl emptyIndex hnd hwf hmem]
  rfl

def wblBatAnt : List (Nat × List Word) := [(3, [['B', 'A', 'T'], ['A', 'N', 'T']])]

/-- Claim C4 (counterexample): the claim fails as stated. The pattern "B.T"
(length 3) matches the corpus word "BAT", yet the index lookup for it is
empty: only contiguous sub-range patterns are ever registered as keys.
Moreover the all-wildcard bucket keeps insertion order [BAT, ANT], which is
not the claimed frequency-then-lexicographic order (ANT sorts before BAT on
any tie). -/
theorem lookup_pattern_counterexample :
    buildWordIndex wblBatAnt (3, ['B', '.', 'T']) = [] ∧
    matchesPattern ['B', '.', 'T'] ['B', 'A', 'T'] = true ∧
    buildWordIndex wblBatAnt (3, dotsPat 3) = [['B', 'A', 'T'], ['A', 'N', 'T']] := by
  decide

/-- Witness for C4's amended theorem at the pattern "BA." (fixed range [0,2)). -/
theorem lookup_contiguous_pattern_characterization_witness :
    buildWordIndex wblBatAnt (3, ['B', 'A', '.'])
      = [['B', 'A', 'T'], ['A', 'N', 'T']].filter
          (fun w => matchesPattern ['B', 'A', '.'] w) :=
  lookup_contiguous_pattern_characterization wblBatAnt (by decide) (by decide)
    3 [['B', 'A', 'T'], ['A', 'N', 'T']] (by decide) 0 2 ['B', 'A', '.']
    (by decide) (by decide) (Or.inr (by decide)) (by decide) (by decide) (by decide)

/-- Witness for C10 at a concrete corpus: the bucket for the fully-fixed key
"CAT" holds the word twice. -/
theorem fullword_bucket_duplicate_witness :
    2 ≤ ((buildWordIndex wblCat (3, ['C', 'A', 'T'])).filter
      (fun x => decide (x = ['C', 'A', 'T']))).length :=
  fullword_bucket_duplicate wblCat 3 [['C', 'A', 'T']] (by decide)
    ['C', 'A', 'T'] (by decide) (by decide) (by decide)

/- ### Association-list dictionaries -/

def alookup {κ β : Type} [DecidableEq κ] : List (κ × β) → κ → Option β
  | [], _ => none
  | (k', v) :: t, k => if k' = k then some v else alookup t k

def aset {κ β : Type} [DecidableEq κ] : List (κ × β) → κ → β → List (κ × β)
  | [], k, v => [(k, v)]
  | (k', v') :: t, k, v =>
    if k' = k then (k, v) :: t else (k', v') :: aset t k v

/- ### Corpus loading (load_words, crosswords.py:81) -/

/-- Normalization of one input line: `line.strip().upper()` followed by
`WORD_CLEAN_RE.sub("", word)` which keeps only A-Z (so the strip is
subsumed by the filter). -/
def cleanWord (line : List Char) : Word :=
  (line.map Char.toUpper).filter (fun c => decide ('A' ≤ c) && decide (c ≤ 'Z'))

/-- `word_counts[word] += 1` on a defaultdict(int), insertion-ordered. -/
def bumpCount : List (Word × Nat) → Word → List (Word × Nat)
  | [], w => [(w, 1)]
  | (w', c) :: t, w =>
    if w' = w then (w', c + 1) :: t else (w', c) :: bumpCount t w

def countWords (lines : List (List Char)) (minLen : Nat) : List (Word × Nat) × Nat :=
  lines.foldl (fun acc line =>
    let w := cleanWord line
    if minLen ≤ w.length then (bumpCount acc.1 w, acc.2 + 1) else acc) ([], 0)

/-- `words_by_length[len(word)].append(word)`. -/
def bucketAppend : List (Nat × List Word) → Nat → Word → List (Nat × List Word)
  | [], L, w => [(L, [w])]
  | (L', ws) :: t, L, w =>
    if L' = L then (L', ws ++ [w]) :: t else (L', ws) :: bucketAppend t L w

/-- `load_words` (crosswords.py:81) over an in-memory list of lines: count
normalized words of sufficient length, store `count / total_count` under the
UPPERCASE key, and bucket by length the words whose count reaches
`min_word_count`. CPython iterates `filtered_words` (a set) in unspecified
order; the model fixes first-insertion order, which no claim depends on. -/
def loadWords (lines : List (List Char)) (minWordCount : Nat) (minLen : Nat) :
    List (Nat × List Word) × List (Word × ℚ) :=
  let ct := countWords lines minLen
  let freqs := ct.1.map (fun wc => (wc.1, (wc.2 : ℚ) / (ct.2 : ℚ)))
  let filtered := (ct.1.filter (fun wc => decide (minWordCount ≤ wc.2))).map Prod.fst
  let wbl := filtered.foldl (fun m w => bucketAppend m w.length w) []
  (wbl, freqs)

/-- `calculate_word_frequency` (crosswords.py:72): looks up the LOWERCASED
word in `word_frequencies` and falls back to the default 1e-6. -/
def calculateWordFrequency (word : Word) (wordFrequencies : List (Word × ℚ)) : ℚ :=
  (alookup wordFrequencies (word.map Char.toLower)).getD (1 / 1000000)

/- ### Solver data model (crosswords.py) -/

/-- A slot tuple `(row, start, direction, length)` from `find_slots`. -/
structure Slot where
  row : Nat
  col : Nat
  dir : Dir
  len : Nat
deriving DecidableEq, Repr

/-- A placed-word tuple `(word, row, col, direction)`. -/
structure PW where
  word : Word
  row : Nat
  col : Nat
  dir : Dir
deriving DecidableEq, Repr

/-- The configuration fields consulted by the solver core: `config.timeout`
and `config.word_frequency_weights[config.difficulty]`. -/
structure Cfg where
  timeout : ℚ
  freqWeight : ℚ
deriving DecidableEq, Repr

/-- The module-global mutable state threaded through the search: the
`CrosswordStats` fields the solver reads or writes, plus the module globals
`slot_attempts_count` and `placement_cache`, plus a counter of
`random.random()` draws consumed (so randomness is an oracle stream). -/
structure St where
  attempts : Nat
  timeSpent : ℚ
  wordsTried : Nat
  backtracks : Nat
  successfulPlacements : Nat
  failedPlacements : Nat
  slotFillOrder : List (Nat × Nat × Dir)
  dynamicMaxBacktrack : ℚ
  slotAttempts : List ((Nat × Nat × Dir) × Nat)
  cache : List ((Word × Nat × Nat × Dir) × Bool)
  randUses : Nat
deriving DecidableEq, Repr

abbrev Res := Option (Grid × List PW) × St

/-- `create_pattern` (crosswords.py:77): maps '.' to '.' and keeps letters. -/
def createPattern (p : List Char) : List Char :=
  p.map (fun c => if c = '.' then '.' else c)

/-- The cells of a slot read from the grid: `grid[row][col:col+length]` for
across, `[grid[row+i][col] for i in range(length)]` for down. -/
def cellsOf (g : Grid) (s : Slot) : List Char :=
  match s.dir with
  | .across => rowSlice g s.row s.col s.len
  | .down => downCells g s.row s.col s.len

def pwPositions (pw : PW) : List (Nat × Nat) :=
  (List.range pw.word.length).map (fun i => cellOf pw.row pw.col pw.dir i)

/-- `check_all_letters_connected` (crosswords.py:397): every placed letter
must agree with the grid, and every covered position must lie inside at least
one placed across word and at least one placed down word. -/
def checkAllLettersConnected (grid : Grid) (placed : List PW) : Bool :=
  if placed.isEmpty then true
  else
    (placed.all fun pw => (List.range pw.word.length).all fun i =>
      getCell grid (cellOf pw.row pw.col pw.dir i).1 (cellOf pw.row pw.col pw.dir i).2
        == pw.word.getD i '?')
    &&
    ((placed.flatMap pwPositions).all fun rc =>
      (placed.any fun pw => pw.dir == Dir.across && rc.1 == pw.row
        && decide (pw.col ≤ rc.2) && decide (rc.2 < pw.col + pw.word.length))
      &&
      (placed.any fun pw => pw.dir == Dir.down && rc.2 == pw.col
        && decide (pw.row ≤ rc.1) && decide (rc.1 < pw.row + pw.word.length)))

/-- `validate_placement` (crosswords.py:434): geometric fit (note the source
uses `len(grid[0])` for across and `len(grid)` for down), letter-conflict
check over the word, then for every intersecting remaining slot with at least
one fixed letter, a non-empty index lookup on its pattern in the temp grid. -/
def validatePlacement (grid : Grid) (slot : Slot) (word : Word)
    (remaining : List Slot) (idx : WordIndex) : Bool :=
  if slot.dir == Dir.across && decide (gridWidth grid < slot.col + slot.len) then false
  else if slot.dir == Dir.down && decide (grid.length < slot.row + slot.len) then false
  else if !((List.range word.length).all fun i =>
      getCell grid (cellOf slot.row slot.col slot.dir i).1
          (cellOf slot.row slot.col slot.dir i).2 == '.'
        || getCell grid (cellOf slot.row slot.col slot.dir i).1
          (cellOf slot.row slot.col slot.dir i).2 == word.getD i '?') then false
  else
    let temp := writeWordFrom grid word slot.row slot.col slot.dir 0
    remaining.all fun ns =>
      if ns.dir == slot.dir then true
      else
        let patt := cellsOf temp ns
        if patt.any (fun ch => !(ch == '.')) then
          !((idx (ns.len, createPattern patt)).isEmpty)
        else true

/-- `get_slot_length` (crosswords.py:617): scan until '#' or the edge. -/
def getSlotLength (g : Grid) (row col : Nat) (d : Dir) : Nat :=
  match d with
  | .across => (((g.getD row []).drop col).takeWhile (fun ch => !(ch == '#'))).length
  | .down =>
    (((g.map (fun r => r.getD col '?')).drop row).takeWhile (fun ch => !(ch == '#'))).length

/-- `count_existing_letters` (crosswords.py:629). -/
def countExistingLetters (g : Grid) (s : Slot) : Nat :=
  let L := getSlotLength g s.row s.col s.dir
  ((List.range L).filter fun i =>
    !(getCell g (cellOf s.row s.col s.dir i).1 (cellOf s.row s.col s.dir i).2 == '.')).length

/-- `count_intersections` (crosswords.py:646). -/
def countIntersections (g : Grid) (s : Slot) (placed : List PW) : Nat :=
  placed.foldl (fun acc pw =>
    if pw.dir == s.dir then acc
    else
      match s.dir with
      | Dir.across => acc + ((List.range (getSlotLength g s.row s.col s.dir)).filter fun i =>
          pw.dir == Dir.down && decide (pw.row ≤ s.row)
            && decide (s.row < pw.row + pw.word.length) && (s.col + i == pw.col)).length
      | Dir.down => acc + ((List.range (getSlotLength g s.row s.col s.dir)).filter fun i =>
          pw.dir == Dir.across && decide (pw.col ≤ s.col)
            && decide (s.col < pw.col + pw.word.length) && (s.row + i == pw.row)).length) 0

def attemptsOf (sa : List ((Nat × Nat × Dir) × Nat)) (k : Nat × Nat × Dir) : Nat :=
  (alookup sa k).getD 0

/-- `get_location_score` (crosswords.py:567), over exact rationals. -/
def getLocationScore (g : Grid) (s : Slot) (sa : List ((Nat × Nat × Dir) × Nat)) : ℚ :=
  let height := g.length
  let width := gridWidth g
  let centerRow := height / 2
  let centerCol := width / 2
  let dist : Nat := (max s.row centerRow - min s.row centerRow)
    + (max s.col centerCol - min s.col centerCol)
  let centerBonus : ℚ := 1 - (dist : ℚ) / ((height : ℚ) + (width : ℚ))
  let lengthBonus : ℚ := (s.len : ℚ) / ((max height width : Nat) : ℚ)
  let crossingSlots : Nat :=
    match s.dir with
    | Dir.across => ((List.range s.len).filter fun i =>
        (List.range height).any fun r => getCell g r (s.col + i) == '.').length
    | Dir.down => ((List.range s.len).filter fun i =>
        (List.range width).any fun c => getCell g (s.row + i) c == '.').length
  let potential : Nat :=
    match s.dir with
    | Dir.across => ((List.range s.len).map fun i =>
        ((List.range height).filter fun r => getCell g r (s.col + i) == '.').length).sum
    | Dir.down => ((List.range s.len).map fun i =>
        ((List.range width).filter fun c => getCell g (s.row + i) c == '.').length).sum
  let intersectionBonus : ℚ :=
    ((crossingSlots : ℚ) + (1 / 2) * (potential : ℚ)) / ((s.len : ℚ) * 2)
  let edgePenalty : ℚ :=
    (if s.row = 0 ∨ height ≤ s.row + (if s.dir == Dir.down then s.len else 1)
      then (1 / 5 : ℚ) else 0)
    + (if s.col = 0 ∨ width ≤ s.col + (if s.dir == Dir.across then s.len else 1)
      then (1 / 5 : ℚ) else 0)
  let attemptPenalty : ℚ :=
    min (1 / 2) ((attemptsOf sa (s.row, s.col, s.dir) : ℚ) * (1 / 50))
  centerBonus * (3 / 10) + lengthBonus * (1 / 5) + intersectionBonus * (2 / 5)
    - edgePenalty * (1 / 10) - attemptPenalty

/-- `get_slot_score` (crosswords.py:672). -/
def getSlotScore (g : Grid) (s : Slot) (placed : List PW) (idx : WordIndex)
    (sa : List ((Nat × Nat × Dir) × Nat)) : ℚ :=
  let base : ℚ := (s.len : ℚ) * 10
    + (countExistingLetters g s : ℚ) * 5
    + (countIntersections g s placed : ℚ) * 3
  let available := (idx (s.len, createPattern (cellsOf g s))).length
  let withAvail : ℚ :=
    if available = 0 then 0
    else base + min 30 (5 * (1 + (available : ℚ) / 100))
  let attemptCount := attemptsOf sa (s.row, s.col, s.dir)
  if 0 < attemptCount then withAvail - (attemptCount : ℚ) * 2 else withAvail

/-- The condition at crosswords.py:745 and :780. Because of Python operator
precedence it parses as a conditional expression: for ACROSS slots the grid
pattern is consulted only when the all-wildcard lookup is empty and the row
slice is nonempty (one-character cell strings are always truthy), while for
DOWN slots it is consulted whenever the slot has at least one cell. -/
def slotNeedsGridPattern (g : Grid) (s : Slot) (vw0 : List Word) : Bool :=
  match s.dir with
  | Dir.across => vw0.isEmpty && !(rowSlice g s.row s.col s.len).isEmpty
  | Dir.down => !(downCells g s.row s.col s.len).isEmpty

/-- Candidate-list retrieval at crosswords.py:738-748 / 777-782. -/
def slotValidWords (g : Grid) (s : Slot) (idx : WordIndex) : List Word :=
  let vw0 := idx (s.len, dotsPat s.len)
  if slotNeedsGridPattern g s vw0 then idx (s.len, createPattern (cellsOf g s))
  else vw0

/-- Total slot ordering score at crosswords.py:750-753:
base + 2 * location - constraint bonus. -/
def slotTotalScore (g : Grid) (s : Slot) (placed : List PW) (idx : WordIndex)
    (sa : List ((Nat × Nat × Dir) × Nat)) : ℚ :=
  let vw := slotValidWords g s idx
  let constraintBonus : ℚ := if vw.isEmpty then 0 else (vw.length : ℚ) / 100
  getSlotScore g s placed idx sa + getLocationScore g s sa * 2 - constraintBonus

/-- Stable descending insertion: models Python `list.sort(key=lambda x: x[0],
reverse=True)`, which is stable on equal keys. -/
def insDesc {α : Type} (x : ℚ × α) : List (ℚ × α) → List (ℚ × α)
  | [] => [x]
  | y :: ys => if y.1 ≤ x.1 then x :: y :: ys else y :: insDesc x ys

def sortDesc {α : Type} (l : List (ℚ × α)) : List (ℚ × α) :=
  l.foldr insDesc []

/-- The candidate scoring loop at crosswords.py:794-803: score is
`calculate_word_frequency(word) * freq_weight`, plus `random.random() * 0.1`
when the slot's attempt counter exceeds 2 (randomization_factor > 0). -/
def scoreWords (rand : Nat → ℚ) (vw : List Word) (freqs : List (Word × ℚ))
    (freqWeight rf : ℚ) (st : St) : List (ℚ × Word) × St :=
  match vw with
  | [] => ([], st)
  | w :: rest =>
    let s0 := calculateWordFrequency w freqs * freqWeight
    let p : ℚ × St :=
      if 0 < rf then (s0 + rand st.randUses * rf, {st with randUses := st.randUses + 1})
      else (s0, st)
    let tail := scoreWords rand rest freqs freqWeight rf p.2
    ((p.1, w) :: tail.1, tail.2)

/-- `try_slot` (crosswords.py:506): cache short-circuit (only a cached False
returns early), validate_placement with negative caching, inline placement
into a fresh grid, forward check over the remaining slots, then the recursive
call (which the source makes with default `executor=None` and `depth=0`),
with success bookkeeping or `handle_backtrack` plus one more
failed_placements increment. The recursive call is abstracted as `recur`;
`words_by_length`, `word_frequencies`, `progress`, `task` and `config` are
pass-through arguments captured inside it. -/
def trySlotGen (recur : Grid → List Slot → List PW → St → Res)
    (grid : Grid) (slot : Slot) (word : Word) (remaining : List Slot)
    (idx : WordIndex) (placed : List PW) (st : St) : Res :=
  let st1 := {st with wordsTried := st.wordsTried + 1}
  let ckey := (word, slot.row, slot.col, slot.dir)
  match alookup st1.cache ckey with
  | some false => (none, st1)
  | _ =>
    if !(validatePlacement grid slot word remaining idx) then
      (none, {st1 with cache := aset st1.cache ckey false})
    else
      let newGrid := writeWordFrom grid word slot.row slot.col slot.dir 0
      let newPlaced := placed ++ [⟨word, slot.row, slot.col, slot.dir⟩]
      let st2 := {st1 with cache := aset st1.cache ckey true}
      if !(remaining.all fun ns =>
          !((idx (ns.len, createPattern (cellsOf newGrid ns))).isEmpty)) then
        (none, st2)
      else
        match recur newGrid remaining newPlaced st2 with
        | (some r, st3) =>
          (some r, {st3 with
            successfulPlacements := st3.successfulPlacements + 1,
            slotFillOrder := st3.slotFillOrder ++ [(slot.row, slot.col, slot.dir)]})
        | (none, st3) =>
          (none, {st3 with
            backtracks := st3.backtracks + 1,
            failedPlacements := st3.failedPlacements + 2,
            slotFillOrder := st3.slotFillOrder.dropLast})

/-- The candidate loop at crosswords.py:808-832. The executor branch submits
the same `try_slot` calls; the model evaluates them in submission order, so
both branches coincide here (only the `as_completed` arrival order of an
actual thread pool is abstracted away). -/
def tryWordsGen (recur : Grid → List Slot → List PW → St → Res)
    (ws : List (ℚ × Word)) (grid : Grid) (slot : Slot) (remaining : List Slot)
    (idx : WordIndex) (placed : List PW) (st : St) : Res :=
  match ws with
  | [] => (none, st)
  | sw :: rest =>
    match trySlotGen recur grid slot sw.2 remaining idx placed st with
    | (some r, st2) =>
      (some r, {st2 with
        slotFillOrder := st2.slotFillOrder ++ [(slot.row, slot.col, slot.dir)]})
    | (none, st2) => tryWordsGen recur rest grid slot remaining idx placed st2

/-- The slot loop at crosswords.py:761-832: per-slot attempt accounting,
adaptive local_max_backtrack, candidate retrieval, scoring, stable descending
sort, truncation to `int(local_max_backtrack)`, candidate loop; on failure
the loop advances to the next scored slot. -/
def trySlotsGen (recur : Grid → List Slot → List PW → St → Res)
    (scored : List (ℚ × Slot)) (slots : List Slot) (grid : Grid)
    (idx : WordIndex) (freqs : List (Word × ℚ)) (cfg : Cfg)
    (rand : Nat → ℚ) (placed : List PW) (st : St) : Res :=
  match scored with
  | [] => (none, st)
  | ss :: rest =>
    let slot := ss.2
    let remaining := slots.filter (fun s => !(s == slot))
    let key := (slot.row, slot.col, slot.dir)
    let afs := (alookup st.slotAttempts key).getD 0 + 1
    let st1 := {st with slotAttempts := aset st.slotAttempts key afs}
    let localMaxBacktrack : ℚ :=
      if 3 < afs then min 10000 (st1.dynamicMaxBacktrack * (1 + (afs : ℚ) / 10))
      else st1.dynamicMaxBacktrack
    let vw := slotValidWords grid slot idx
    if vw.isEmpty then
      trySlotsGen recur rest slots grid idx freqs cfg rand placed st1
    else
      let rf : ℚ := if 2 < afs then 1 / 10 else 0
      let sw := scoreWords rand vw freqs cfg.freqWeight rf st1
      let truncated := (sortDesc sw.1).take (Int.toNat ⌊localMaxBacktrack⌋)
      match tryWordsGen recur truncated grid slot remaining idx placed sw.2 with
      | (some r, st2) => (some r, st2)
      | (none, st2) => trySlotsGen recur rest slots grid idx freqs cfg rand placed st2

/-- `select_words_recursive` (crosswords.py:708). Wall time and randomness
are oracle streams; `fuel` bounds the recursion nesting (each nested call
removes one slot, so `|slots| + 1` fuel is never exhausted from
`select_words`); the `depth` parameter mirrors the source argument, which
nested calls leave at its default 0. -/
def selectWordsRec (idx : WordIndex) (freqs : List (Word × ℚ)) (cfg : Cfg)
    (clock : Nat → ℚ) (rand : Nat → ℚ) :
    Nat → Grid → List Slot → List PW → Nat → St → Res
  | 0, _, _, _, _, st => (none, st)
  | fuel + 1, grid, slots, placed, depth, st =>
    let st2 := {st with attempts := st.attempts + 1, timeSpent := clock (st.attempts + 1)}
    if slots.length * 3 < depth then (none, st2)
    else if cfg.timeout < st2.timeSpent then (none, st2)
    else if slots.isEmpty then
      if checkAllLettersConnected grid placed then (some (grid, placed), st2)
      else (none, st2)
    else
      let scored := slots.map (fun s => (slotTotalScore grid s placed idx st2.slotAttempts, s))
      trySlotsGen
        (fun g sl pl stx => selectWordsRec idx freqs cfg clock rand fuel g sl pl 0 stx)
        (sortDesc scored) slots grid idx freqs cfg rand placed st2

/-- Modelled from the spec: the numeric defaults DEFAULT_MAX_BACKTRACK = 500
(and beam width 500) come from config.py, which is absent from the source
tree; spec section 6 lists max_backtrack (500) and beam_width (500). -/
def initSt : St :=
  { attempts := 0, timeSpent := 0, wordsTried := 0, backtracks := 0,
    successfulPlacements := 0, failedPlacements := 0, slotFillOrder := [],
    dynamicMaxBacktrack := 500, slotAttempts := [], cache := [], randUses := 0 }

/-- `select_words` (crosswords.py:837): fresh stats, then the recursive
search. The root call passes a thread-pool executor whose candidate
evaluation the model performs in submission order. -/
def selectWords (grid : Grid) (slots : List Slot) (idx : WordIndex)
    (freqs : List (Word × ℚ)) (cfg : Cfg) (clock : Nat → ℚ) (rand : Nat → ℚ) : Res :=
  selectWordsRec idx freqs cfg clock rand (slots.length + 1) grid slots [] 0 initSt

/- ### Soundness of the search result (claim C1) -/

def SoundRec (recur : Grid → List Slot → List PW → St → Res) : Prop :=
  ∀ g sl pl st g2 p2, (recur g sl pl st).1 = some (g2, p2) →
    checkAllLettersConnected g2 p2 = true

theorem trySlotGen_sound (recur : Grid → List Slot → List PW → St → Res)
    (h : SoundRec recur) (grid : Grid) (slot : Slot) (word : Word)
    (remaining : List Slot) (idx : WordIndex) (placed : List PW) (st : St)
    (g2 : Grid) (p2 : List PW)
    (hres : (trySlotGen recur grid slot word remaining idx placed st).1 = some (g2, p2)) :
    checkAllLettersConnected g2 p2 = true := by
  simp only [trySlotGen] at hres
  split at hres
  · simp at hres
  · split at hres
    · simp at hres
    · split at hres
      · simp at hres
      · split at hres
        · rename_i r st3 heq
          exact h _ _ _ _ g2 p2 (by rw [heq]; simpa using hres)
        · simp at hres

theorem tryWordsGen_sound (recur : Grid → List Slot → List PW → St → Res)
    (h : SoundRec recur) (ws : List (ℚ × Word)) :
    ∀ (grid : Grid) (slot : Slot) (remaining : List Slot) (idx : WordIndex)
      (placed : List PW) (st : St) (g2 : Grid) (p2 : List PW),
      (tryWordsGen recur ws grid slot remaining idx placed st).1 = some (g2, p2) →
      checkAllLettersConnected g2 p2 = true := by
  induction ws with
  | nil =>
    intro grid slot remaining idx placed st g2 p2 hres
    simp [tryWordsGen] at hres
  | cons sw rest ih =>
    intro grid slot remaining idx placed st g2 p2 hres
    simp only [tryWordsGen] at hres
    split at hres
    · rename_i r st2 heq
      exact trySlotGen_sound recur h grid slot sw.2 remaining idx placed st g2 p2
        (by rw [heq]; simpa using hres)
    · rename_i st2 heq
      exact ih grid slot remaining idx placed st2 g2 p2 hres

theorem trySlotsGen_sound (recur : Grid → List Slot → List PW → St → Res)
    (h : SoundRec recur) (scored : List (ℚ × Slot)) :
    ∀ (slots : List Slot) (grid : Grid) (idx : WordIndex) (freqs : List (Word × ℚ))
      (cfg : Cfg) (rand : Nat → ℚ) (placed : List PW) (st : St)
      (g2 : Grid) (p2 : List PW),
      (trySlotsGen recur scored slots grid idx freqs cfg rand placed st).1 = some (g2, p2) →
      checkAllLettersConnected g2 p2 = true := by
  induction scored with
  | nil =>
    intro slots grid idx freqs cfg rand placed st g2 p2 hres
    simp [trySlotsGen] at hres
  | cons ss rest ih =>
    intro slots grid idx freqs cfg rand placed st g2 p2 hres
    simp only [trySlotsGen] at hres
    split at hres
    · exact ih slots grid idx freqs cfg rand placed _ g2 p2 hres
    · split at hres
      · rename_i r st2 heq
        exact tryWordsGen_sound recur h _ _ _ _ _ _ _ g2 p2
          (by rw [heq]; simpa using hres)
      · rename_i st2 heq
        exact ih slots grid idx freqs cfg rand placed st2 g2 p2 hres

/-- Claim C1: whenever the backtracking search returns a filled grid (the
base case with no remaining slots), the returned pair passes
`check_all_letters_connected`: every cell covered by a placed word holds that
word's letter and lies inside at least one placed ACROSS and one placed DOWN
word; an assignment failing the check is rejected (None), never returned. -/
theorem selectWordsRec_returns_connected
    (idx : WordIndex) (freqs : List (Word × ℚ)) (cfg : Cfg)
    (clock : Nat → ℚ) (rand : Nat → ℚ) (fuel : Nat) (grid : Grid)
    (slots : List Slot) (placed : List PW) (depth : Nat) (st : St)
    (g2 : Grid) (p2 : List PW)
    (hres : (selectWordsRec idx freqs cfg clock rand fuel grid slots placed depth st).1
      = some (g2, p2)) :
    checkAllLettersConnected g2 p2 = true := by
  induction fuel generalizing grid slots placed depth st g2 p2 with
  | zero => simp [selectWordsRec] at hres
  | succ f ih =>
    simp only [selectWordsRec] at hres
    split at hres
    · simp at hres
    · split at hres
      · simp at hres
      · split at hres
        · split at hres
          · rename_i hempty hcheck
            simp only [Option.some.injEq, Prod.mk.injEq] at hres
            obtain ⟨hg, hp⟩ := hres
            rw [← hg, ← hp]
            exact hcheck
          · simp at hres
        · exact trySlotsGen_sound _
            (fun g sl pl stx g3 p3 hx => ih g sl pl 0 stx g3 p3 hx)
            _ slots grid idx freqs cfg rand placed _ g2 p2 hres

def idx0 : WordIndex := fun _ => []

def cfg0 : Cfg := { timeout := 1000, freqWeight := 1 }

def clk0 : Nat → ℚ := fun _ => 0

def rnd0 : Nat → ℚ := fun _ => 0

/-- Witness for C1: a concrete call that does return a grid, whose returned
placement list passes the connectivity check. -/
theorem selectWordsRec_returns_connected_witness :
    checkAllLettersConnected [['A']] [] = true :=
  selectWordsRec_returns_connected idx0 [] cfg0 clk0 rnd0 1 [['A']] [] [] 0 initSt
    [['A']] [] (by decide)

/- ### The depth guard (claim C6) -/

/-- Claim C6 (amended): the guard is strict. A call fails before scoring or
enumerating anything only when its `depth` argument STRICTLY exceeds
3·|slots| (the only state change being the attempt counter / clock update);
and since `try_slot` invokes the recursion with the default `depth=0`, the
guard never fires below the root of a solve - nesting is instead bounded
because every recursive call removes the chosen slot from the slot list. -/
theorem depth_guard_strict (idx : WordIndex) (freqs : List (Word × ℚ)) (cfg : Cfg)
    (clock : Nat → ℚ) (rand : Nat → ℚ) (fuel : Nat) (grid : Grid)
    (slots : List Slot) (placed : List PW) (depth : Nat) (st : St)
    (h : slots.length * 3 < depth) :
    selectWordsRec idx freqs cfg clock rand (fuel + 1) grid slots placed depth st
      = (none, {st with
          attempts := st.attempts + 1
          timeSpent := clock (st.attempts + 1)}) := by
  simp only [selectWordsRec]
  rw [if_pos h]

/-- Witness for C6's amended theorem at a concrete input. -/
theorem depth_guard_strict_witness :
    selectWordsRec idx0 [] cfg0 clk0 rnd0 (0 + 1) [[]] [] [] 1 initSt
      = (none, {initSt with
          attempts := initSt.attempts + 1
          timeSpent := clk0 (initSt.attempts + 1)}) :=
  depth_guard_strict idx0 [] cfg0 clk0 rnd0 0 [[]] [] [] 1 initSt (by decide)

def slot30 : Slot := { row := 0, col := 0, dir := Dir.across, len := 3 }

def idxA : WordIndex := fun k => if k = (3, dotsPat 3) then [['A', 'A', 'A']] else []

/-- Claim C6 (counterexample): a node whose depth exactly REACHES the cap
3·|slots| does not fail without enumerating candidates: with one slot and
depth = 3 = 3·1, the call proceeds into the slot loop - it records an attempt
for the slot and tries a candidate word (words_tried becomes 1) - instead of
failing at the guard as the claim requires for depth ≥ 3·|slots|. -/
theorem depth_cap_counterexample :
    (selectWordsRec idxA [] cfg0 clk0 rnd0 2 [['.', '.', '.']] [slot30] [] 3 initSt).1
        = none ∧
    (selectWordsRec idxA [] cfg0 clk0 rnd0 2 [['.', '.', '.']] [slot30] [] 3 initSt).2.wordsTried
        = 1 ∧
    alookup (selectWordsRec idxA [] cfg0 clk0 rnd0 2
        [['.', '.', '.']] [slot30] [] 3 initSt).2.slotAttempts (0, 0, Dir.across)
      = some 1 := by decide

/- ### Candidate scoring (claim C3) -/

def linesCatDog : List (List Char) :=
  [['c', 'a', 't'], ['c', 'a', 't'], ['c', 'a', 't'], ['d', 'o', 'g']]

/-- Claim C3 (code bug): `load_words` stores the normalized frequency
count/total under the UPPERCASE key (here CAT ↦ 3/4), but
`calculate_word_frequency` looks up `word.lower()`, so for every candidate
produced by the index (always uppercase) the lookup misses and the default
1e-6 is returned: the candidate score computed by the solver's scoring loop
is weight·1e-6, never weight·freq(w). -/
theorem candidateScore_ignores_frequency_bug :
    alookup (loadWords linesCatDog 1 3).2 ['C', 'A', 'T']
        = some (((3 : Nat) : ℚ) / ((4 : Nat) : ℚ)) ∧
    calculateWordFrequency ['C', 'A', 'T'] (loadWords linesCatDog 1 3).2
        = 1 / 1000000 ∧
    (scoreWords rnd0 [['C', 'A', 'T']] (loadWords linesCatDog 1 3).2 1 0 initSt).1
        = [(1 / 1000000 * 1, ['C', 'A', 'T'])] ∧
    (1 : ℚ) / 1000000 * 1 ≠ ((3 : Nat) : ℚ) / ((4 : Nat) : ℚ) := by
  refine ⟨?_, ?_, ?_, ?_⟩
  · rfl
  · rfl
  · rfl
  · norm_num

/- ### Random grid generation (generate_grid_random, crosswords.py:256) -/

/-- The pre-placement 2x2 check at crosswords.py:279-282: would painting
`(row, col)` black complete a 2x2 block of '#' in any of the four squares
containing it? (The symmetric mirror cell is NOT checked by the source.) -/
def ggCheck2x2 (g : Grid) (row col width height : Nat) : Bool :=
  (decide (0 < row) && decide (0 < col) && getCell g (row - 1) col == '#'
    && getCell g row (col - 1) == '#' && getCell g (row - 1) (col - 1) == '#')
  || (decide (0 < row) && decide (col < width - 1) && getCell g (row - 1) col == '#'
    && getCell g row (col + 1) == '#' && getCell g (row - 1) (col + 1) == '#')
  || (decide (row < height - 1) && decide (0 < col) && getCell g (row + 1) col == '#'
    && getCell g row (col - 1) == '#' && getCell g (row + 1) (col - 1) == '#')
  || (decide (row < height - 1) && decide (col < width - 1) && getCell g (row + 1) col == '#'
    && getCell g row (col + 1) == '#' && getCell g (row + 1) (col + 1) == '#')

/-- `is_isolated` (crosswords.py:286): no white 4-neighbour. -/
def isIsolated (g : Grid) (r c width height : Nat) : Bool :=
  !(decide (0 < r) && getCell g (r - 1) c == '.')
  && !(decide (r < height - 1) && getCell g (r + 1) c == '.')
  && !(decide (0 < c) && getCell g r (c - 1) == '.')
  && !(decide (c < width - 1) && getCell g r (c + 1) == '.')

/-- `place_symmetrically` (crosswords.py:261). -/
def placeSym (g : Grid) (row col width height : Nat) : Grid :=
  setCell (setCell g row col '#') (height - 1 - row) (width - 1 - col) '#'

/-- The placement loop of `generate_grid_random`; `fuel` counts the remaining
attempts (the Python loop runs while `attempts < max_attempts`), `attempts`
numbers the `random.randint` draws, and the oracle value is reduced modulo
the dimension exactly as `randint(0, dim - 1)` ranges over it. -/
def ggLoop (rng : Nat → Nat × Nat) (width height : Nat) (numBlack : Int) :
    Nat → Nat → Int → Grid → Grid
  | 0, _, _, g => g
  | fuel + 1, attempts, placed, g =>
    if placed < numBlack then
      let rc := rng (attempts + 1)
      let row := rc.1 % height
      let col := rc.2 % width
      if getCell g row col == '.' then
        if ggCheck2x2 g row col width height then
          ggLoop rng width height numBlack fuel (attempts + 1) placed g
        else if isIsolated g row col width height then
          ggLoop rng width height numBlack fuel (attempts + 1) placed g
        else
          ggLoop rng width height numBlack fuel (attempts + 1)
            (placed + (if (row, col) ≠ (height - 1 - row, width - 1 - col) then 2 else 1))
            (placeSym g row col width height)
      else ggLoop rng width height numBlack fuel (attempts + 1) placed g
    else g

/-- `generate_grid_random` (crosswords.py:256): all-white grid,
`num_black_squares = int(width * height * ratio)` (truncation = floor for the
nonnegative values used), center pre-placed and the budget decremented when
both dimensions are odd, then up to `width * height * 5` placement attempts. -/
def generateGridRandom (width height : Nat) (bsRatio : ℚ) (rng : Nat → Nat × Nat) : Grid :=
  let g0 : Grid := List.replicate height (List.replicate width '.')
  let nb : Int := ⌊(width : ℚ) * (height : ℚ) * bsRatio⌋
  if width % 2 = 1 ∧ height % 2 = 1 then
    ggLoop rng width height (nb - 1) (width * height * 5) 0 0
      (placeSym g0 (height / 2) (width / 2) width height)
  else
    ggLoop rng width height nb (width * height * 5) 0 0 g0

/-- Rule R1 violation detector: some 2x2 square of the grid is entirely '#'. -/
def has2x2 (g : Grid) : Bool :=
  (List.range g.length).any fun r => (List.range (gridWidth g)).any fun c =>
    getCell g r c == '#' && getCell g (r + 1) c == '#'
      && getCell g r (c + 1) == '#' && getCell g (r + 1) (c + 1) == '#'

/-- The oracle reproducing the failing draw sequence: attempt 1 picks (1,2),
attempt 2 picks (1,1). -/
def rng7 : Nat → Nat × Nat :=
  fun n => if n = 1 then (1, 2) else if n = 2 then (1, 1) else (0, 0)

/-- Claim C7 (code bug): on a 4x4 grid with ratio 1/4 and the draws (1,2)
then (1,1), `generate_grid_random` returns a grid containing a full 2x2
block of '#' (rows 1-2, columns 1-2). The pre-placement check only guards
the drawn cell; the 180-degree mirror of each pair is placed unchecked, and
here the mirror (2,2) of (1,1) completes the block with the previously
placed pair (1,2)/(2,1). -/
theorem generateGridRandom_two_by_two_block :
    has2x2 (generateGridRandom 4 4 (1 / 4) rng7) = true := by
  have hnb : (⌊((4 : Nat) : ℚ) * ((4 : Nat) : ℚ) * (1 / 4 : ℚ)⌋ : ℤ) = 4 := by
    rw [show ((4 : Nat) : ℚ) * ((4 : Nat) : ℚ) * (1 / 4 : ℚ) = ((4 : ℤ) : ℚ) by norm_num]
    exact Int.floor_intCast 4
  simp only [generateGridRandom]
  rw [if_neg (by decide), hnb]
  decide

/- ### Theme entry placement (crossword_generator.py) -/

/-- A template slot record: the fields consulted by `find_suitable_slots` and
`place_theme_entry` (`id`, `direction`, `length`, `cells`). -/
structure TSlot where
  id : Word
  dir : Dir
  len : Nat
  cells : List (Nat × Nat)
deriving DecidableEq, Repr

/-- The template dict fields used by theme placement. -/
structure Template where
  grid : Grid
  slots : List TSlot
  themeSlots : List Word
  filledSlots : List (Word × Word)
  themeEntries : List (Word × Word)
deriving DecidableEq, Repr

def isPySpace (c : Char) : Bool :=
  c == ' ' || c == '\t' || c == '\n' || c == '\r'

/-- `theme_entry.strip()`. -/
def stripChars (s : Word) : Word :=
  ((s.dropWhile isPySpace).reverse.dropWhile isPySpace).reverse

/-- `theme_entry.strip().upper()`. -/
def normEntry (s : Word) : Word := (stripChars s).map Char.toUpper

/-- `find_suitable_slots` (crossword_generator.py:79): restrict to declared
theme slots when that list is nonempty, then keep slots of exactly the
entry's length. When nothing matches the source only logs the closest
available length - the (empty) list is returned unchanged, with NO fallback
to other slots. -/
def findSuitableSlots (t : Template) (themeEntry : Word) : List TSlot :=
  let e := normEntry themeEntry
  let candidateSlots :=
    if t.themeSlots.isEmpty then t.slots
    else t.slots.filter (fun s => decide (s.id ∈ t.themeSlots))
  candidateSlots.filter (fun s => decide (s.len = e.length))

/-- `for i, cell in enumerate(cells): grid[row][col] = theme_entry[i]`. -/
def writeCells (g : Grid) (cells : List (Nat × Nat)) (w : Word) (i : Nat) : Grid :=
  match cells with
  | [] => g
  | rc :: rest => writeCells (setCell g rc.1 rc.2 (w.getD i '?')) rest w (i + 1)

/-- `place_theme_entry` (crossword_generator.py:116): raises ValueError when
no suitable slot exists (modelled as `none`); otherwise `random.choice` picks
a suitable slot (modelled by an oracle index `k`, reduced mod the list
length), the entry is written into a copied grid, and `filled_slots` /
`theme_entries` are replaced by the singleton mapping. -/
def placeThemeEntry (t : Template) (themeEntry : Word) (k : Nat) : Option Template :=
  let e := normEntry themeEntry
  match findSuitableSlots t themeEntry with
  | [] => none
  | s0 :: rest =>
    let chosen := (s0 :: rest).getD (k % (s0 :: rest).length) s0
    some { t with
      grid := writeCells t.grid chosen.cells e 0
      filledSlots := [(chosen.id, e)]
      themeEntries := [(chosen.id, e)] }

/-- Claim C8 (amended): when the template declares theme slots, only those
are candidates; a slot of the entry's exact length is chosen at random among
them; only a template with NO declared theme slots considers all slots; and
when no candidate has the entry's length, placement fails (raises) instead
of falling back to other slots of matching length. -/
theorem placeThemeEntry_characterization (t : Template) (w : Word) (k : Nat) :
    (∀ s, s ∈ findSuitableSlots t w ↔
      (s ∈ t.slots ∧ s.len = (normEntry w).length ∧
        (¬t.themeSlots.isEmpty → s.id ∈ t.themeSlots)))
    ∧ (findSuitableSlots t w = [] → placeThemeEntry t w k = none)
    ∧ (findSuitableSlots t w ≠ [] →
        ∃ s ∈ findSuitableSlots t w, ∃ t2, placeThemeEntry t w k = some t2 ∧
          t2.filledSlots = [(s.id, normEntry w)] ∧
          t2.themeEntries = [(s.id, normEntry w)] ∧
          t2.grid = writeCells t.grid s.cells (normEntry w) 0) := by
  refine ⟨?_, ?_, ?_⟩
  · intro s
    by_cases hts : t.themeSlots.isEmpty
    · simp [findSuitableSlots, hts, List.mem_filter]
    · simp [findSuitableSlots, hts, List.mem_filter]
  · intro h
    simp [placeThemeEntry, h]
  · intro h
    cases hs : findSuitableSlots t w with
    | nil => exact absurd hs h
    | cons s0 rest =>
      have hlt : k % (s0 :: rest).length < (s0 :: rest).length :=
        Nat.mod_lt _ (by simp)
      have hmemb : (s0 :: rest).getD (k % (s0 :: rest).length) s0 ∈ (s0 :: rest) := by
        rw [List.getD_eq_getElem _ _ hlt]
        exact List.getElem_mem hlt
      refine ⟨(s0 :: rest).getD (k % (s0 :: rest).length) s0, ?_, ?_⟩
      · exact hmemb
      · refine ⟨{ t with
            grid := writeCells t.grid
              ((s0 :: rest).getD (k % (s0 :: rest).length) s0).cells (normEntry w) 0
            filledSlots :=
              [(((s0 :: rest).getD (k % (s0 :: rest).length) s0).id, normEntry w)]
            themeEntries :=
              [(((s0 :: rest).getD (k % (s0 :: rest).length) s0).id, normEntry w)] },
          ?_, rfl, rfl, rfl⟩
        simp only [placeThemeEntry]
        rw [hs]

def tmplThemeMismatch : Template :=
  { grid := []
    slots := [ { id := ['s', '1'], dir := Dir.across, len := 4, cells := [] },
               { id := ['s', '2'], dir := Dir.across, len := 5, cells := [] } ]
    themeSlots := [['s', '1']]
    filledSlots := []
    themeEntries := [] }

/-- Claim C8 (counterexample): the template declares theme slot s1 (length 4)
and also contains slot s2 of length 5 = |OCEAN|; the claim says placement
falls back to s2, but find_suitable_slots returns [] (theme slots only) and
place_theme_entry fails instead of falling back. -/
theorem theme_fallback_counterexample :
    findSuitableSlots tmplThemeMismatch ['O', 'C', 'E', 'A', 'N'] = [] ∧
    placeThemeEntry tmplThemeMismatch ['O', 'C', 'E', 'A', 'N'] 0 = none ∧
    tmplThemeMismatch.slots.filter (fun s => decide (s.len = 5)) ≠ [] := by decide

def tmplThemeOk : Template :=
  { grid := [['.', '.', '.', '.', '.']]
    slots := [ { id := ['s', '1'], dir := Dir.across, len := 4, cells := [] },
               { id := ['s', '2'], dir := Dir.across, len := 5,
                 cells := [(0, 0), (0, 1), (0, 2), (0, 3), (0, 4)] } ]
    themeSlots := [['s', '2']]
    filledSlots := []
    themeEntries := [] }

/-- Witness for C8's amended theorem: with declared theme slot s2 of matching
length, placement succeeds on a suitable slot. -/
theorem placeThemeEntry_characterization_witness :
    ∃ s ∈ findSuitableSlots tmplThemeOk ['O', 'C', 'E', 'A', 'N'],
      ∃ t2, placeThemeEntry tmplThemeOk ['O', 'C', 'E', 'A', 'N'] 0 = some t2 ∧
        t2.filledSlots = [(s.id, normEntry ['O', 'C', 'E', 'A', 'N'])] ∧
        t2.themeEntries = [(s.id, normEntry ['O', 'C', 'E', 'A', 'N'])] ∧
        t2.grid = writeCells tmplThemeOk.grid s.cells
          (normEntry ['O', 'C', 'E', 'A', 'N']) 0 :=
  (placeThemeEntry_characterization tmplThemeOk ['O', 'C', 'E', 'A', 'N'] 0).2.2
    (by decide)

/- ### Heap-level model of place_word / remove_word (claim C9) -/

def heapGet (h : List Grid) (a : Nat) : Grid := h.getD a []

def heapSet (h : List Grid) (a : Nat) (g : Grid) : List Grid := h.set a g

/-- `new_grid = [row[:] for row in grid]`: allocate a fresh cell holding a
copy of the grid at `a`; the returned address is fresh (one past the end). -/
def allocCopy (h : List Grid) (a : Nat) : List Grid × Nat :=
  (h ++ [heapGet h a], h.length)

/-- The write loop of `place_word`, performed through the heap at address `a`. -/
def placeWordHFrom (h : List Grid) (a : Nat) (w : Word) (row col : Nat) (d : Dir)
    (i : Nat) : List Grid :=
  match w with
  | [] => h
  | ch :: rest =>
    let rc := cellOf row col d i
    placeWordHFrom (heapSet h a (setCell (heapGet h a) rc.1 rc.2 ch))
      a rest row col d (i + 1)

/-- `place_word` (crosswords.py:374) at heap level: copy, then write only
through the fresh address. -/
def placeWordH (h : List Grid) (a : Nat) (w : Word) (row col : Nat) (d : Dir) :
    List Grid × Nat :=
  let p := allocCopy h a
  (placeWordHFrom p.1 p.2 w row col d 0, p.2)

/-- The conditional-reset loop of `remove_word`, through the heap. -/
def removeWordHFrom (h : List Grid) (a : Nat) (w : Word) (row col : Nat) (d : Dir)
    (i : Nat) : List Grid :=
  match w with
  | [] => h
  | ch :: rest =>
    let rc := cellOf row col d i
    let h1 := if getCell (heapGet h a) rc.1 rc.2 = ch
      then heapSet h a (setCell (heapGet h a) rc.1 rc.2 '.') else h
    removeWordHFrom h1 a rest row col d (i + 1)

/-- `remove_word` (crosswords.py:385) at heap level. -/
def removeWordH (h : List Grid) (a : Nat) (w : Word) (row col : Nat) (d : Dir) :
    List Grid × Nat :=
  let p := allocCopy h a
  (removeWordHFrom p.1 p.2 w row col d 0, p.2)

theorem heapGet_heapSet_ne (h : List Grid) (a b : Nat) (g : Grid) (hab : a ≠ b) :
    heapGet (heapSet h a g) b = heapGet h b :=
  list_getD_set_ne h a b g [] hab

theorem heapGet_heapSet_eq (h : List Grid) (a : Nat) (g : Grid) (ha : a < h.length) :
    heapGet (heapSet h a g) a = g :=
  list_getD_set_eq h a g [] ha

theorem heapSet_length (h : List Grid) (a : Nat) (g : Grid) :
    (heapSet h a g).length = h.length := by
  simp [heapSet]

theorem list_getD_append_lt {α : Type} (l l' : List α) (n : Nat) (d : α)
    (h : n < l.length) : (l ++ l').getD n d = l.getD n d := by
  induction l generalizing n with
  | nil => simp at h
  | cons x xs ih =>
    cases n with
    | zero => rfl
    | succ m => exact ih m (by simp at h; omega)

theorem list_getD_append_len {α : Type} (l : List α) (x : α) (d : α) :
    (l ++ [x]).getD l.length d = x := by
  induction l with
  | nil => rfl
  | cons y ys ih => exact ih

theorem placeWordHFrom_get_other (w : Word) (h : List Grid) (a b : Nat)
    (row col : Nat) (d : Dir) (i : Nat) (hab : a ≠ b) :
    heapGet (placeWordHFrom h a w row col d i) b = heapGet h b := by
  induction w generalizing h i with
  | nil => rfl
  | cons ch rest ih =>
    show heapGet (placeWordHFrom (heapSet h a _) a rest row col d (i + 1)) b = _
    rw [ih _ (i + 1), heapGet_heapSet_ne _ _ _ _ hab]

theorem removeWordHFrom_get_other (w : Word) (h : List Grid) (a b : Nat)
    (row col : Nat) (d : Dir) (i : Nat) (hab : a ≠ b) :
    heapGet (removeWordHFrom h a w row col d i) b = heapGet h b := by
  induction w generalizing h i with
  | nil => rfl
  | cons ch rest ih =>
    simp only [removeWordHFrom]
    rw [ih _ (i + 1)]
    split
    · rw [heapGet_heapSet_ne _ _ _ _ hab]
    · rfl

theorem placeWordHFrom_get_self (w : Word) (h : List Grid) (a : Nat)
    (row col : Nat) (d : Dir) (i : Nat) (ha : a < h.length) :
    heapGet (placeWordHFrom h a w row col d i) a
      = writeWordFrom (heapGet h a) w row col d i := by
  induction w generalizing h i with
  | nil => rfl
  | cons ch rest ih =>
    show heapGet (placeWordHFrom (heapSet h a _) a rest row col d (i + 1)) a = _
    rw [ih _ (i + 1) (by rw [heapSet_length]; exact ha),
      heapGet_heapSet_eq _ _ _ ha]
    rfl

theorem removeWordHFrom_get_self (w : Word) (h : List Grid) (a : Nat)
    (row col : Nat) (d : Dir) (i : Nat) (ha : a < h.length) :
    heapGet (removeWordHFrom h a w row col d i) a
      = removeWordFrom (heapGet h a) w row col d i := by
  induction w generalizing h i with
  | nil => rfl
  | cons ch rest ih =>
    simp only [removeWordHFrom, removeWordFrom]
    split
    · rw [ih _ (i + 1) (by rw [heapSet_length]; exact ha),
        heapGet_heapSet_eq _ _ _ ha]
    · rw [ih _ (i + 1) ha]

/-- Claim C9: `place_word` and `remove_word` never mutate the grid passed in.
In the heap model both allocate a fresh address (distinct from the argument),
leave the heap cell at the argument address untouched, and the fresh cell
holds exactly the functional result of the corresponding write loop. -/
theorem place_remove_no_mutation (h : List Grid) (a : Nat) (w : Word)
    (row col : Nat) (d : Dir) (ha : a < h.length) :
    heapGet (placeWordH h a w row col d).1 a = heapGet h a ∧
    (placeWordH h a w row col d).2 ≠ a ∧
    heapGet (placeWordH h a w row col d).1 (placeWordH h a w row col d).2
      = placeWord (heapGet h a) w row col d ∧
    heapGet (removeWordH h a w row col d).1 a = heapGet h a ∧
    (removeWordH h a w row col d).2 ≠ a ∧
    heapGet (removeWordH h a w row col d).1 (removeWordH h a w row col d).2
      = removeWord (heapGet h a) w row col d := by
  have hne : h.length ≠ a := by omega
  have hlen : h.length < (h ++ [heapGet h a]).length := by simp
  have hbase : heapGet (h ++ [heapGet h a]) a = heapGet h a :=
    list_getD_append_lt h [heapGet h a] a [] ha
  have hfresh : heapGet (h ++ [heapGet h a]) h.length = heapGet h a :=
    list_getD_append_len h (heapGet h a) []
  refine ⟨?_, ?_, ?_, ?_, ?_, ?_⟩
  · show heapGet (placeWordHFrom (h ++ [heapGet h a]) h.length w row col d 0) a = _
    rw [placeWordHFrom_get_other _ _ _ _ _ _ _ _ hne, hbase]
  · exact hne
  · show heapGet (placeWordHFrom (h ++ [heapGet h a]) h.length w row col d 0) h.length = _
    rw [placeWordHFrom_get_self _ _ _ _ _ _ _ hlen, hfresh]
    rfl
  · show heapGet (removeWordHFrom (h ++ [heapGet h a]) h.length w row col d 0) a = _
    rw [removeWordHFrom_get_other _ _ _ _ _ _ _ _ hne, hbase]
  · exact hne
  · show heapGet (removeWordHFrom (h ++ [heapGet h a]) h.length w row col d 0) h.length = _
    rw [removeWordHFrom_get_self _ _ _ _ _ _ _ hlen, hfresh]
    rfl

/-- Witness for C9 at a concrete heap. -/
theorem place_remove_no_mutation_witness :
    heapGet (placeWordH [[['.', '.', '.']]] 0 ['C', 'A', 'T'] 0 0 Dir.across).1 0
        = heapGet [[['.', '.', '.']]] 0 ∧
    (placeWordH [[['.', '.', '.']]] 0 ['C', 'A', 'T'] 0 0 Dir.across).2 ≠ 0 ∧
    heapGet (placeWordH [[['.', '.', '.']]] 0 ['C', 'A', 'T'] 0 0 Dir.across).1
        (placeWordH [[['.', '.', '.']]] 0 ['C', 'A', 'T'] 0 0 Dir.across).2
      = placeWord (heapGet [[['.', '.', '.']]] 0) ['C', 'A', 'T'] 0 0 Dir.across ∧
    heapGet (removeWordH [[['.', '.', '.']]] 0 ['C', 'A', 'T'] 0 0 Dir.across).1 0
        = heapGet [[['.', '.', '.']]] 0 ∧
    (removeWordH [[['.', '.', '.']]] 0 ['C', 'A', 'T'] 0 0 Dir.across).2 ≠ 0 ∧
    heapGet (removeWordH [[['.', '.', '.']]] 0 ['C', 'A', 'T'] 0 0 Dir.across).1
        (removeWordH [[['.', '.', '.']]] 0 ['C', 'A', 'T'] 0 0 Dir.across).2
      = removeWord (heapGet [[['.', '.', '.']]] 0) ['C', 'A', 'T'] 0 0 Dir.across :=
  place_remove_no_mutation [[['.', '.', '.']]] 0 ['C', 'A', 'T'] 0 0 Dir.across
    (by decide)
